import Mathlib

/-
  Verification of the frontmatter tag-merge engine of the file-frontmatter
  plugin (src/src/libs/utils.ts, src/src/libs/spellingNormalizer.ts,
  src/src/handlers/modals.ts).

  Strings are modelled as lists of character codes (`Str := List Nat`),
  with ASCII case mapping and the ASCII reading of the JavaScript regex
  classes `\w` (letters, digits, underscore) and `\s` (whitespace).
  Each definition mirrors one source function; regex-based scanning is
  embedded by specialised matchers that implement the exact
  greedy/lazy/backtracking order of the corresponding regex literal.
-/

namespace FF

/-- A JavaScript string, as its list of character codes. -/
abbrev Str := List Nat

/-- Character codes of a Lean string literal. -/
def S (s : String) : Str := s.toList.map Char.toNat

/-- JS regex class backslash-s (ASCII part): space, tab, LF, VT, FF, CR. -/
def isWs (c : Nat) : Bool := c == 32 || c == 9 || c == 10 || c == 11 || c == 12 || c == 13

/-- JS regex class backslash-w: ASCII letters, digits and underscore. -/
def isWordChar (c : Nat) : Bool :=
  (97 ≤ c && c ≤ 122) || (65 ≤ c && c ≤ 90) || (48 ≤ c && c ≤ 57) || c == 95

/-- String.prototype.toLowerCase on one character (ASCII). -/
def toLowerC (c : Nat) : Nat := if 65 ≤ c && c ≤ 90 then c + 32 else c

/-- String.prototype.toUpperCase on one character (ASCII). -/
def toUpperC (c : Nat) : Nat := if 97 ≤ c && c ≤ 122 then c - 32 else c

/-- String.prototype.toLowerCase. -/
def lower (l : Str) : Str := l.map toLowerC

/-- String.prototype.trim: strip whitespace from both ends. -/
def trim (l : Str) : Str :=
  ((l.dropWhile (fun c => isWs c)).reverse.dropWhile (fun c => isWs c)).reverse

/-- replace(/[-_]+/g, ' '): each maximal run of hyphens/underscores becomes one space.
    The flag records whether the previous character belonged to such a run. -/
def dashUnderRunsToSpaceGo : Bool → Str → Str
  | _, [] => []
  | prev, c :: rest =>
    if c == 45 || c == 95 then
      if prev then dashUnderRunsToSpaceGo true rest
      else 32 :: dashUnderRunsToSpaceGo true rest
    else c :: dashUnderRunsToSpaceGo false rest

def dashUnderRunsToSpace (l : Str) : Str := dashUnderRunsToSpaceGo false l

/-- split(/\s+/): cut the string at every maximal whitespace run, keeping the
    (possibly empty) pieces between the runs, as JS String.prototype.split does. -/
def splitWsGo : Bool → Str → Str → List Str
  | _, [], cur => [cur.reverse]
  | inWs, c :: rest, cur =>
    if isWs c then
      if inWs then splitWsGo true rest []
      else cur.reverse :: splitWsGo true rest []
    else splitWsGo false rest (c :: cur)

def splitWs (l : Str) : List Str := splitWsGo false l []

/-- countWords from src/src/libs/utils.ts:
    str.trim().replace(/[-_]+/g, ' ').split(/\s+/g).length -/
def countWords (l : Str) : Nat :=
  (splitWs (dashUnderRunsToSpace (trim l))).length

/-- isValidTag from src/src/libs/utils.ts. -/
def isValidTag (tag : Str) (maxWordsPerTag : Nat) : Bool :=
  let wordCount := countWords tag
  if maxWordsPerTag == 1 then wordCount ≤ 2
  else wordCount ≤ maxWordsPerTag

/-- Result record of filterErroneousTags. -/
structure FilterResult where
  validTags : List Str
  hasErroneousTags : Bool
  deriving Repr, DecidableEq

/-- filterErroneousTags from src/src/libs/utils.ts: keep the valid tags,
    and flag the batch as erroneous only when no tag at all survived. -/
def filterErroneousTags (tags : List Str) (maxWordsPerTag : Nat) : FilterResult :=
  let validTags := tags.filter (fun t => isValidTag t maxWordsPerTag)
  { validTags := validTags, hasErroneousTags := validTags.length == 0 }

/-- The four tag case formats of src/src/handlers/types.ts. -/
inductive TagCaseFormat where
  | lowercase | uppercase | titlecase | retain
  deriving Repr, DecidableEq

/-- replace(/"/g, ''). -/
def stripQuotes (l : Str) : Str := l.filter (fun c => c != 34)

/-- replace(/\s+/g, '-'): each maximal whitespace run becomes one hyphen. -/
def wsRunsToDashGo : Bool → Str → Str
  | _, [] => []
  | prev, c :: rest =>
    if isWs c then
      if prev then wsRunsToDashGo true rest
      else 45 :: wsRunsToDashGo true rest
    else c :: wsRunsToDashGo false rest

def wsRunsToDash (l : Str) : Str := wsRunsToDashGo false l

/-- String.prototype.split('-') : cut at every hyphen, keeping empty pieces. -/
def splitChar (sep : Nat) : Str → List Str
  | [] => [[]]
  | c :: rest =>
    let r := splitChar sep rest
    if c == sep then [] :: r
    else
      match r with
      | [] => [[c]]
      | p :: ps => (c :: p) :: ps

/-- Array.prototype.join(sep) for a one-character separator. -/
def joinChar (sep : Nat) : List Str → Str
  | [] => []
  | [w] => w
  | w :: w2 :: ws => w ++ sep :: joinChar sep (w2 :: ws)

/-- word.charAt(0).toUpperCase() + word.slice(1).toLowerCase(). -/
def titleWordJS : Str → Str
  | [] => []
  | c :: rest => toUpperC c :: rest.map toLowerC

/-- formatTag from src/src/libs/utils.ts: strip double quotes, replace
    whitespace runs by hyphens, then apply the case format. -/
def formatTag (tag : Str) (caseFormat : TagCaseFormat) : Str :=
  let formattedTag := wsRunsToDash (stripQuotes tag)
  match caseFormat with
  | .lowercase => lower formattedTag
  | .uppercase => formattedTag.map toUpperC
  | .titlecase => joinChar 45 ((splitChar 45 formattedTag).map titleWordJS)
  | .retain => formattedTag

/-- The hyphen-run replace of normalizeForComparison: each maximal run of
    hyphens becomes one hyphen. -/
def collapseDashRunsGo : Bool → Str → Str
  | _, [] => []
  | prev, c :: rest =>
    if c == 45 then
      if prev then collapseDashRunsGo true rest
      else 45 :: collapseDashRunsGo true rest
    else c :: collapseDashRunsGo false rest

def collapseDashRuns (l : Str) : Str := collapseDashRunsGo false l

/-- The character class kept by replace(/[^\w\s-]/g, ''). -/
def keepC (c : Nat) : Bool := isWordChar c || isWs c || c == 45

/-- normalizeForComparison from src/src/libs/spellingNormalizer.ts:
    lowercase, drop characters outside backslash-w/backslash-s/hyphen,
    turn whitespace runs into hyphens, collapse hyphen runs. -/
def normalizeForComparison (text : Str) : Str :=
  collapseDashRuns (wsRunsToDash ((lower text).filter keepC))

/-- The two language preferences of src/src/handlers/types.ts. -/
inductive LanguagePreference where
  | uk | us
  deriving Repr, DecidableEq

/-- Modelled from the spec: the regional spelling-pair table of
    spellingVariants.json, which is imported by the spelling normalizer but is
    not part of the source tree. Section 4.3 of the specification describes it
    as a bidirectional mapping of regional spelling pairs (one spelling per
    language region for the same concept word), and the scenario of section 8
    requires the pair colour-theory / color-theory to be present. Each entry is
    (UK variant, US variant). -/
def spellingVariants : List (Str × Str) :=
  [ (S "colour", S "color")
  , (S "colour-theory", S "color-theory")
  , (S "behaviour", S "behavior")
  , (S "organise", S "organize")
  , (S "analyse", S "analyze")
  , (S "centre", S "center") ]

/-- preferred.charAt(0).toUpperCase() + preferred.slice(1). -/
def capitalizeFirst : Str → Str
  | [] => []
  | c :: rest => toUpperC c :: rest

/-- normalizeSpelling from src/src/libs/spellingNormalizer.ts: if the
    lowercased text equals either side of a known pair, return the side
    matching the language preference, copying the leading capitalisation of
    the input; otherwise return the text unchanged. -/
def normalizeSpelling (text : Str) (languagePreference : LanguagePreference) : Str :=
  let lowercased := lower text
  match spellingVariants.find?
      (fun p => lowercased == lower p.1 || lowercased == lower p.2) with
  | some p =>
    let preferred := if languagePreference == .uk then p.1 else p.2
    match text with
    | [] => preferred
    | c :: _ => if c == toUpperC c then capitalizeFirst preferred else preferred
  | none => text

/-! Tag generation orchestrator (generateTags, src/src/handlers/modals.ts).
    The AI backend is modelled, as in the claim, by the sequence of raw
    tag-list responses it would return on successive calls. -/

/-- The retry loop of generateTags. `passes` counts the calls made so far;
    the loop leaves as soon as the filtered batch is not erroneous or two
    calls have been made, so a fuel of 2 always suffices. Returns the
    surviving tags of the last attempt and the number of calls made. -/
def genLoopGo (responses : Nat → List Str) (maxWordsPerTag : Nat) :
    Nat → Nat → List Str × Nat
  | 0, passes => ([], passes)
  | fuel + 1, passes =>
    let rawTags := responses passes
    let integrityResult := filterErroneousTags rawTags maxWordsPerTag
    let passes' := passes + 1
    if !integrityResult.hasErroneousTags || 2 ≤ passes' then
      (integrityResult.validTags, passes')
    else genLoopGo responses maxWordsPerTag fuel passes'

/-- generateTags from src/src/handlers/modals.ts: run the bounded retry loop,
    then truncate the surviving tags of the last attempt to maxTags. -/
def generateTags (responses : Nat → List Str) (maxWordsPerTag maxTags : Nat) :
    List Str × Nat :=
  let r := genLoopGo responses maxWordsPerTag 2 0
  (r.1.take maxTags, r.2)

/-! String-index primitives used by manageFrontmatterTags. -/

/-- Does `pat` begin the string `l`? -/
def leadsWith : Str → Str → Bool
  | [], _ => true
  | _ :: _, [] => false
  | p :: ps, c :: cs => p == c && leadsWith ps cs

/-- Case-insensitive version of leadsWith, as the /i regex flag gives. -/
def ciLeadsWith (pat l : Str) : Bool := leadsWith (lower pat) (lower l)

/-- Index of the first occurrence of `pat` in `l`, if any. -/
def subIdx (pat : Str) : Str → Option Nat
  | [] => if leadsWith pat [] then some 0 else none
  | c :: rest =>
    if leadsWith pat (c :: rest) then some 0
    else (subIdx pat rest).map (· + 1)

/-- String.prototype.indexOf(pat, start) with a found/not-found option. -/
def idxFrom (pat l : Str) (start : Nat) : Option Nat :=
  (subIdx pat (l.drop start)).map (· + start)

/-- String.prototype.indexOf(pat, start) in JS form: -1 when absent, and a
    negative start is treated as 0. -/
def jsIndexOf (pat l : Str) (start : Int) : Int :=
  match subIdx pat (l.drop start.toNat) with
  | some i => (i : Int) + (start.toNat : Int)
  | none => -1

/-- String.prototype.includes. -/
def includes (pat l : Str) : Bool := (subIdx pat l).isSome

/-- String.prototype.substring(a, b): clamp both indices to the string, use
    the smaller as the start. -/
def jsSubstring (l : Str) (a b : Int) : Str :=
  let len := l.length
  let a' := min a.toNat len
  let b' := min b.toNat len
  (l.drop (min a' b')).take (max a' b' - min a' b')

/-- String.prototype.substring(a) (to the end of the string). -/
def jsSubstringFrom (l : Str) (a : Int) : Str := l.drop a.toNat

/-! The specialised matchers embedding the three regex literals of
    extractExistingTags (src/src/handlers/modals.ts). -/

/-- Length of the leading whitespace run. -/
def wsRunLen (l : Str) : Nat := (l.takeWhile (fun c => isWs c)).length

/-- The candidate lengths a greedy backslash-s-star can consume when the next
    pattern character must be `c`: every k with a k-long all-whitespace prefix
    and `c` at position k, largest (greedy) first. -/
def greedyWsThen (c : Nat) (l : Str) : List Nat :=
  ((List.range (wsRunLen l + 1)).filter (fun k => l.get? k == some c)).reverse

/-- One item of the YAML-list regex:
    backslash-s-star, '-', backslash-s-star, an optional quote, a lazy dot-star
    capture, an optional quote, backslash-s-star, then a newline. Returns the
    consumed length and the capture, following the regex backtracking order
    (outer greedy parts first, lazy capture expanding from empty). Note that
    the leading backslash-s-star is forced to the whole whitespace run, since
    '-' is not whitespace. -/
def mItemAt (l : Str) : Option (Nat × Str) :=
  let w1 := wsRunLen l
  if l.get? w1 == some 45 then
    let rest1 := l.drop (w1 + 1)
    -- greedy backslash-s-star before the optional quote, backtracking downward
    ((List.range (wsRunLen rest1 + 1)).reverse.findSome? (fun k2 =>
      let rest2 := rest1.drop k2
      -- greedy optional opening quote
      let q1s := if rest2.get? 0 == some 34 || rest2.get? 0 == some 39 then [1, 0] else [0]
      q1s.findSome? (fun q1 =>
        let rest3 := rest2.drop q1
        -- lazy capture: expand from the empty string, never across a newline
        let maxM := (rest3.takeWhile (fun c => c != 10)).length
        (List.range (maxM + 1)).findSome? (fun m =>
          let rest4 := rest3.drop m
          let q2s := if rest4.get? 0 == some 34 || rest4.get? 0 == some 39 then [1, 0] else [0]
          q2s.findSome? (fun q2 =>
            let rest5 := rest4.drop q2
            (greedyWsThen 10 rest5).findSome? (fun k3 =>
              some (w1 + 1 + k2 + q1 + m + q2 + k3 + 1, rest3.take m)))))))
  else none

/-- The greedy one-or-more repetition of the item pattern: total length
    consumed by as many items as will match. Each item consumes at least two
    characters, so a fuel of the string length suffices. -/
def mItemsStar : Nat → Str → Nat
  | 0, _ => 0
  | fuel + 1, l =>
    match mItemAt l with
    | none => 0
    | some (c, _) => if c == 0 then 0 else c + mItemsStar fuel (l.drop c)

/-- Matcher for the YAML-list regex at one position:
    'tags:' (case-insensitive), backslash-s-star, a newline, then one or more
    items; returns the region matched by the capture group (the items).
    The backslash-s-star backtracks from the longest whitespace prefix
    followed by a newline. -/
def mR1At (l : Str) : Option Str :=
  if ciLeadsWith (S "tags:") l then
    let rest := l.drop 5
    (greedyWsThen 10 rest).findSome? (fun k =>
      let body := rest.drop (k + 1)
      match mItemAt body with
      | none => none
      | some (c, _) =>
        if c == 0 then none
        else some (body.take (c + mItemsStar body.length (body.drop c))))
  else none

/-- Matcher for the inline-array regex at one position: 'tags:'
    (case-insensitive), backslash-s-star, '[', a lazy dot-star capture, ']'.
    The whitespace run is forced ('[' is not whitespace); the lazy capture
    stops at the first ']' and cannot cross a newline. -/
def mR2At (l : Str) : Option Str :=
  if ciLeadsWith (S "tags:") l then
    let rest := l.drop 5
    let k := wsRunLen rest
    if rest.get? k == some 91 then
      let body := rest.drop (k + 1)
      let m := (body.takeWhile (fun c => c != 10 && c != 93)).length
      if body.get? m == some 93 then some (body.take m) else none
    else none
  else none

/-- Matcher for the single-scalar regex at one position: 'tags:'
    (case-insensitive), backslash-s-star, a lazy dot-star capture, then a
    newline or the end of the string. The greedy whitespace run together with
    the lazy capture make this: skip the whitespace run, capture up to the
    next newline or the end; it always succeeds after 'tags:'. -/
def mR3At (l : Str) : Option Str :=
  if ciLeadsWith (S "tags:") l then
    let rest := l.drop 5
    let body := rest.drop (wsRunLen rest)
    some (body.takeWhile (fun c => c != 10))
  else none

/-- String.prototype.match: try the matcher at every position, leftmost wins. -/
def scanFirst {α : Type} (f : Str → Option α) : Str → Option α
  | [] => f []
  | c :: rest =>
    match f (c :: rest) with
    | some r => some r
    | none => scanFirst f rest

/-- The regex.exec loop over the captured YAML-list region: successive
    non-overlapping item matches, collecting each nonempty capture trimmed.
    Matches restart where the previous one ended; fuel bounds the scan. -/
def yamlItemsLoop : Nat → Str → List Str
  | 0, _ => []
  | fuel + 1, l =>
    match scanFirstPos l with
    | none => []
    | some (start, consumed, capture) =>
      let rest := l.drop (start + consumed)
      let this := if capture == ([] : Str) then [] else [trim capture]
      this ++ (if consumed == 0 then [] else yamlItemsLoop fuel rest)
where
  /-- Leftmost item match: its start, consumed length and capture. -/
  scanFirstPos : Str → Option (Nat × Nat × Str)
    | [] => (mItemAt []).map (fun r => (0, r.1, r.2))
    | c :: rest =>
      match mItemAt (c :: rest) with
      | some r => some (0, r.1, r.2)
      | none => (scanFirstPos rest).map (fun r => (r.1 + 1, r.2.1, r.2.2))

/-- replace(/["']/g, ''). -/
def stripAllQuotes (l : Str) : Str := l.filter (fun c => c != 34 && c != 39)

/-- extractExistingTags from src/src/handlers/modals.ts: try the YAML-list
    shape, then the inline-array shape, then the single-scalar shape. An
    empty inline capture is falsy in JS, so it falls through to the
    single-scalar shape, whose '[]' value is explicitly rejected. -/
def extractExistingTags (frontmatter : Str) : List Str :=
  match scanFirst mR1At frontmatter with
  | some region => yamlItemsLoop region.length region
  | none =>
    match scanFirst mR2At frontmatter with
    | some capture =>
      if capture != ([] : Str) then
        ((splitChar 44 capture).map (fun t => trim (stripAllQuotes t))).filter
          (fun t => t != ([] : Str))
      else extractSingle frontmatter
    | none => extractSingle frontmatter
where
  /-- The single-scalar fallback shared by both failure paths. -/
  extractSingle (frontmatter : Str) : List Str :=
    match scanFirst mR3At frontmatter with
    | some capture =>
      let singleTag := trim capture
      if singleTag != ([] : Str) && singleTag != S "[]" then [stripAllQuotes singleTag]
      else []
    | none => []

/-! The frontmatter merge engine (src/src/handlers/modals.ts). -/

/-- formatTagsList from src/src/handlers/modals.ts, with its optional prefix
    and wrapper arguments. -/
def formatTagsList (tags : List Str) (tagCaseFormat : TagCaseFormat)
    (pre wrapper : Str) : List Str :=
  tags.map (fun tag => pre ++ wrapper ++ formatTag tag tagCaseFormat ++ wrapper)

/-- formatTagsAsYamlList from src/src/handlers/modals.ts: one '- value' line
    per tag, joined by newlines. -/
def formatTagsAsYamlList (tags : List Str) (tagCaseFormat : TagCaseFormat) : Str :=
  joinChar 10 (formatTagsList tags tagCaseFormat (S "- ") [])

/-- The scanning loop of replaceTagsSection: starting from the newline that
    ends the 'tags:' line, keep consuming lines until one contains a colon or
    is exactly '---' (then step past the previous newline and stop), the next
    newline is missing, or the end of the frontmatter is reached. Indices are
    JS numbers: -1 stands for not-found. The index strictly increases each
    round and is bounded by the length, so a fuel of length + 2 suffices. -/
def rtsLoop (fm : Str) : Nat → Int → Int
  | 0, tagsEndIndex => tagsEndIndex
  | fuel + 1, tagsEndIndex =>
    if tagsEndIndex < (fm.length : Int) - 1 then
      let nextLineStart := jsIndexOf (S "\n") fm (tagsEndIndex + 1)
      if nextLineStart == -1 then tagsEndIndex
      else
        let nextLine := trim (jsSubstring fm (tagsEndIndex + 1) nextLineStart)
        if includes (S ":") nextLine || nextLine == S "---" then tagsEndIndex + 1
        else rtsLoop fm fuel nextLineStart
    else tagsEndIndex

/-- replaceTagsSection from src/src/handlers/modals.ts: find the (lowercased)
    'tags:' key, scan to the end of its section, and splice in the new list. -/
def replaceTagsSection (frontmatter formattedTagsList : Str) : Str :=
  match subIdx (S "tags:") (lower frontmatter) with
  | none => frontmatter
  | some tagsStartIndex =>
    let te0 := jsIndexOf (S "\n") frontmatter (tagsStartIndex : Int)
    let tagsEndIndex := rtsLoop frontmatter (frontmatter.length + 2) te0
    jsSubstring frontmatter 0 (tagsStartIndex : Int) ++
      S "tags:\n" ++ formattedTagsList ++
      jsSubstringFrom frontmatter tagsEndIndex

/-- Replace every occurrence of `pat` (nonempty) by `val`, scanning left to
    right and not rescanning the replacement, as a global JS regex replace of
    a literal pattern does. Fuel bounds the scan by the string length. -/
def replaceAllGo (pat val : Str) : Nat → Str → Str
  | 0, l => l
  | fuel + 1, l =>
    match l with
    | [] => []
    | c :: rest =>
      if leadsWith pat l && pat != ([] : Str) then
        val ++ replaceAllGo pat val fuel (l.drop pat.length)
      else c :: replaceAllGo pat val fuel rest

def replaceAll (pat val l : Str) : Str := replaceAllGo pat val l.length l

/-- replaceTemplateVariables from src/src/libs/utils.ts: substitute every
    '\x7b\x7bkey\x7d\x7d' occurrence by its value, one variable at a time in
    entry order. -/
def replaceTemplateVariables (template : Str) (vars : List (Str × Str)) : Str :=
  vars.foldl
    (fun result kv => replaceAll (S "\x7b\x7b" ++ kv.1 ++ S "\x7d\x7d") kv.2 result)
    template

/-- The object-spread merge of createNewFrontmatter's allVars: the given
    template variables with the 'tags' entry replaced in place, or appended
    when absent. -/
def mergeVars (templateVars : List (Str × Str)) (tagsVal : Str) : List (Str × Str) :=
  if templateVars.any (fun kv => kv.1 == S "tags") then
    templateVars.map (fun kv => if kv.1 == S "tags" then (kv.1, tagsVal) else kv)
  else templateVars ++ [(S "tags", tagsVal)]

/-- createNewFrontmatter from src/src/handlers/modals.ts: build a block from
    the template (or the default two-line tags block), substitute variables,
    and put the original content below it. -/
def createNewFrontmatter (content : Str) (tags : List Str)
    (tagCaseFormat : TagCaseFormat) (templateStr : Option Str)
    (templateVars : Option (List (Str × Str))) : Str :=
  let formattedTagsList := formatTagsAsYamlList tags tagCaseFormat
  let templateStr' := templateStr.getD (S "---\ntags:\n\x7b\x7btags\x7d\x7d\n---\n")
  let allVars := mergeVars (templateVars.getD []) formattedTagsList
  let frontmatter := replaceTemplateVariables templateStr' allVars
  frontmatter ++ S "\n\n" ++ content

/-- The two merge modes. -/
inductive MergeMode where
  | append | replace
  deriving Repr, DecidableEq

/-- The combined tag list computed by manageFrontmatterTags in append mode:
    spelling-normalize the existing tags, keep the new tags whose comparison
    key matches no normalized existing tag, and put the kept new tags
    (formatted and normalized) after the normalized existing ones. -/
def appendCombinedTags (existingTags tags : List Str) (tagCaseFormat : TagCaseFormat)
    (langPref : LanguagePreference) : List Str :=
  let normalizedExistingTags := existingTags.map (fun tag => normalizeSpelling tag langPref)
  let newTags := tags.filter (fun tag =>
    let formattedTag := formatTag tag tagCaseFormat
    let normalizedTag := normalizeSpelling formattedTag langPref
    let normalizedLowerTag := normalizeForComparison normalizedTag
    !(normalizedExistingTags.any (fun existingTag =>
        normalizeForComparison existingTag == normalizedLowerTag)))
  normalizedExistingTags ++
    newTags.map (fun t => normalizeSpelling (formatTag t tagCaseFormat) langPref)

/-- manageFrontmatterTags from src/src/handlers/modals.ts. -/
def manageFrontmatterTags (content : Str) (tags : List Str)
    (tagCaseFormat : TagCaseFormat) (mode : MergeMode)
    (templateStr : Option Str) (templateVars : Option (List (Str × Str)))
    (languagePreference : Option LanguagePreference) : Str :=
  let langPref := languagePreference.getD .uk
  if leadsWith (S "---\n") content then
    match idxFrom (S "---\n") content 4 with
    | some frontmatterEnd =>
      let frontmatter := content.take frontmatterEnd
      let restOfContent := content.drop frontmatterEnd
      if includes (S "tags:") frontmatter then
        match mode with
        | .append =>
          let existingTags := extractExistingTags frontmatter
          let combinedTags := appendCombinedTags existingTags tags tagCaseFormat langPref
          let formattedTagsList := formatTagsAsYamlList combinedTags tagCaseFormat
          replaceTagsSection frontmatter formattedTagsList ++ restOfContent
        | .replace =>
          let normalizedTags :=
            tags.map (fun tag => normalizeSpelling (formatTag tag tagCaseFormat) langPref)
          let formattedTagsList := formatTagsAsYamlList normalizedTags tagCaseFormat
          replaceTagsSection frontmatter formattedTagsList ++ restOfContent
      else
        let normalizedTags :=
          tags.map (fun tag => normalizeSpelling (formatTag tag tagCaseFormat) langPref)
        let formattedTagsList := formatTagsAsYamlList normalizedTags tagCaseFormat
        frontmatter ++ S "tags:\n" ++ formattedTagsList ++ S "\n" ++ restOfContent
    | none =>
      let normalizedTags :=
        tags.map (fun tag => normalizeSpelling (formatTag tag tagCaseFormat) langPref)
      createNewFrontmatter content normalizedTags tagCaseFormat templateStr templateVars
  else
    let normalizedTags :=
      tags.map (fun tag => normalizeSpelling (formatTag tag tagCaseFormat) langPref)
    createNewFrontmatter content normalizedTags tagCaseFormat templateStr templateVars

/-- A separator character of the comparison key: whitespace or hyphen. -/
def isSep (c : Nat) : Bool := isWs c || c == 45

/-- Collapse each maximal run of separator characters to a single hyphen.
    This is what the whitespace replace and the hyphen-run replace of
    normalizeForComparison jointly do; it is used to relate the comparison
    key of a formatted tag to the comparison key of the raw tag. -/
def sepCollapseGo : Bool → Str → Str
  | _, [] => []
  | prev, c :: rest =>
    if isSep c then
      if prev then sepCollapseGo true rest
      else 45 :: sepCollapseGo true rest
    else c :: sepCollapseGo false rest

/-- A block of newline-terminated lines. -/
def linesFlat : List Str → Str
  | [] => []
  | ln :: rest => ln ++ 10 :: linesFlat rest

/-! Theorems. -/

/-- C3: for every tag list T and every maxWordsPerTag n,
    filterErroneousTags(T, n).hasErroneousTags is true exactly when zero tags
    of T survive the per-tag validity filter; in particular it is true for the
    empty list, and false for a batch in which only one of two tags survives
    ("ok" survives at maxWordsPerTag 1, the six-word tag is dropped). -/
theorem C3_filter_all_or_none :
    (∀ (T : List Str) (n : Nat),
      (filterErroneousTags T n).hasErroneousTags = true ↔
        T.filter (fun t => isValidTag t n) = []) ∧
    (∀ n : Nat, (filterErroneousTags [] n).hasErroneousTags = true) ∧
    (filterErroneousTags [S "a-very-long-multi-word-tag", S "ok"] 1).hasErroneousTags
      = false ∧
    (filterErroneousTags [S "a-very-long-multi-word-tag", S "ok"] 1).validTags
      = [S "ok"] := by
  refine ⟨?_, ?_, by decide, by decide⟩
  · intro T n
    simp [filterErroneousTags, List.length_eq_zero]
  · intro n
    simp [filterErroneousTags]

/-- C8: at maxWordsPerTag 1, isValidTag accepts up to two words (hyphens and
    underscores count as word separators), and for every maxWordsPerTag
    greater than 1 a tag is valid exactly when its word count is at most
    maxWordsPerTag. -/
theorem C8_one_word_leniency :
    (isValidTag (S "two-words") 1 = true) ∧
    (isValidTag (S "three-word-tag") 1 = false) ∧
    (∀ t : Str, isValidTag t 1 = true ↔ countWords t ≤ 2) ∧
    (∀ (t : Str) (n : Nat), 1 < n → (isValidTag t n = true ↔ countWords t ≤ n)) := by
  refine ⟨by decide, by decide, ?_, ?_⟩
  · intro t
    simp [isValidTag]
  · intro t n hn
    have : (n == 1) = false := by
      simp only [beq_eq_false_iff_ne, ne_eq]
      omega
    simp [isValidTag, this]

/-- C8 witness: the general clause applied at the three-word tag "a-b-c" with
    maxWordsPerTag 3. -/
theorem C8_one_word_leniency_witness :
    1 < 3 ∧ (isValidTag (S "a-b-c") 3 = true ↔ countWords (S "a-b-c") ≤ 3) :=
  ⟨by decide, C8_one_word_leniency.2.2.2 (S "a-b-c") 3 (by decide)⟩

/-- C4: for every backend (modelled as the sequence of raw tag-list responses)
    generateTags makes at most two calls, and returns the tags of the last
    attempt that survive the validity filter (in the backend's order),
    truncated to the first maxTags. The loop is bounded by construction: it
    exits as soon as the batch is clean or two calls have been made. -/
theorem C4_generate_tags_bounded :
    ∀ (responses : Nat → List Str) (maxWordsPerTag maxTags : Nat),
      (generateTags responses maxWordsPerTag maxTags).2 ≤ 2 ∧
      (generateTags responses maxWordsPerTag maxTags).1 =
        ((responses ((generateTags responses maxWordsPerTag maxTags).2 - 1)).filter
          (fun t => isValidTag t maxWordsPerTag)).take maxTags := by
  intro responses maxWordsPerTag maxTags
  by_cases h : ∃ x ∈ responses 0, isValidTag x maxWordsPerTag = true
  · simp [generateTags, genLoopGo, filterErroneousTags, h]
  · simp [generateTags, genLoopGo, filterErroneousTags, h]

/-- A found occurrence really is one: the pattern begins at the found index. -/
theorem subIdx_some_leadsWith {pat l : Str} {n : Nat} (h : subIdx pat l = some n) :
    leadsWith pat (l.drop n) = true := by
  induction l generalizing n with
  | nil =>
    simp only [subIdx] at h
    split at h
    next hlw => cases h; simpa using hlw
    next => cases h
  | cons c rest ih =>
    simp only [subIdx] at h
    split at h
    next hlw => cases h; simpa using hlw
    next =>
      rw [Option.map_eq_some'] at h
      obtain ⟨m, hm, hmn⟩ := h
      subst hmn
      simpa using ih hm

/-- subIdx finds the leftmost occurrence: everything strictly before fails. -/
theorem subIdx_some_min {pat l : Str} {n : Nat} (h : subIdx pat l = some n) :
    ∀ m, m < n → leadsWith pat (l.drop m) = false := by
  induction l generalizing n with
  | nil =>
    simp only [subIdx] at h
    split at h
    · cases h; intro m hm; omega
    · cases h
  | cons c rest ih =>
    simp only [subIdx] at h
    split at h
    next => cases h; intro m hm; omega
    next hlw =>
      rw [Option.map_eq_some'] at h
      obtain ⟨k, hm, hkn⟩ := h
      subst hkn
      intro m hmlt
      match m with
      | 0 => simpa using hlw
      | m + 1 => simpa using ih hm m (by omega)

/-- If the pattern occurs at position n and nowhere before, subIdx finds n. -/
theorem subIdx_eq_some {pat l : Str} {n : Nat}
    (hAt : leadsWith pat (l.drop n) = true)
    (hMin : ∀ m, m < n → leadsWith pat (l.drop m) = false) :
    subIdx pat l = some n := by
  induction l generalizing n with
  | nil =>
    simp only [List.drop_nil] at hAt
    match n with
    | 0 => simp [subIdx, hAt]
    | n + 1 =>
      have := hMin 0 (by omega)
      simp only [List.drop_nil] at this
      rw [this] at hAt
      cases hAt
  | cons c rest ih =>
    match n with
    | 0 =>
      simp only [List.drop_zero] at hAt
      simp [subIdx, hAt]
    | n + 1 =>
      have h0 := hMin 0 (by omega)
      simp only [List.drop_zero] at h0
      simp only [subIdx, h0, Bool.false_eq_true, if_false]
      have : subIdx pat rest = some n := by
        apply ih
        · simpa using hAt
        · intro m hm
          have := hMin (m + 1) (by omega)
          simpa using this
      rw [this]
      rfl

/-- If the pattern occurs nowhere, subIdx finds nothing. -/
theorem subIdx_eq_none {pat l : Str}
    (h : ∀ m, leadsWith pat (l.drop m) = false) :
    subIdx pat l = none := by
  induction l with
  | nil =>
    have := h 0
    simp only [List.drop_nil] at this
    simp [subIdx, this]
  | cons c rest ih =>
    have h0 := h 0
    simp only [List.drop_zero] at h0
    simp only [subIdx, h0, Bool.false_eq_true, if_false]
    rw [ih (fun m => by simpa using h (m + 1))]
    rfl

/-- C2: a document that opens with the frontmatter delimiter but has no
    closing delimiter is treated as having no frontmatter: for every tag
    list, case format, mode, template and language preference the result is a
    freshly built frontmatter block (the template with variables substituted)
    followed by a blank line and the original document text in full,
    including its stray opening delimiter line. No error is raised: the
    embedding is a total function and this equation is unconditional on the
    inputs other than the two shape hypotheses. -/
theorem C2_malformed_frontmatter (content : Str) (tags : List Str)
    (fmt : TagCaseFormat) (mode : MergeMode) (tmpl : Option Str)
    (tvars : Option (List (Str × Str))) (lang : LanguagePreference)
    (hOpen : leadsWith (S "---\n") content = true)
    (hNoClose : idxFrom (S "---\n") content 4 = none) :
    manageFrontmatterTags content tags fmt mode tmpl tvars (some lang) =
      replaceTemplateVariables
        (tmpl.getD (S "---\ntags:\n\x7b\x7btags\x7d\x7d\n---\n"))
        (mergeVars (tvars.getD [])
          (formatTagsAsYamlList
            (tags.map (fun t => normalizeSpelling (formatTag t fmt) lang)) fmt)) ++
      S "\n\n" ++ content := by
  simp [manageFrontmatterTags, hOpen, hNoClose, createNewFrontmatter]

/-- C2 witness: the malformed document consisting of an opening delimiter and
    two content lines, tagged in append mode with the default template. -/
theorem C2_malformed_frontmatter_witness :
    leadsWith (S "---\n") (S "---\nno closing\nmore") = true ∧
    idxFrom (S "---\n") (S "---\nno closing\nmore") 4 = none ∧
    manageFrontmatterTags (S "---\nno closing\nmore") [S "My Tag"] .lowercase .append
        none none (some .uk) =
      replaceTemplateVariables (S "---\ntags:\n\x7b\x7btags\x7d\x7d\n---\n")
        (mergeVars []
          (formatTagsAsYamlList
            ([S "My Tag"].map (fun t => normalizeSpelling (formatTag t .lowercase) .uk))
            .lowercase)) ++
      S "\n\n" ++ S "---\nno closing\nmore" :=
  ⟨by decide, by decide,
    C2_malformed_frontmatter (S "---\nno closing\nmore") [S "My Tag"] .lowercase .append
      none none .uk (by decide) (by decide)⟩

/-- C9: when the document has well-formed frontmatter (an opening delimiter
    and a closing delimiter found at index e), the closing delimiter begins at
    position e and everything from it onward is byte-for-byte unchanged by
    manageFrontmatterTags, for every tag list, case format, mode and language
    preference: the result is some rebuilt frontmatter followed by exactly
    content.drop e. -/
theorem C9_suffix_preserved (content : Str) (tags : List Str)
    (fmt : TagCaseFormat) (mode : MergeMode) (tmpl : Option Str)
    (tvars : Option (List (Str × Str))) (lang : Option LanguagePreference)
    (e : Nat)
    (hOpen : leadsWith (S "---\n") content = true)
    (hClose : idxFrom (S "---\n") content 4 = some e) :
    leadsWith (S "---\n") (content.drop e) = true ∧
    ∃ fm, manageFrontmatterTags content tags fmt mode tmpl tvars lang =
      fm ++ content.drop e := by
  constructor
  · simp only [idxFrom, Option.map_eq_some'] at hClose
    obtain ⟨i, hi, hie⟩ := hClose
    subst hie
    have := subIdx_some_leadsWith hi
    rwa [List.drop_drop, Nat.add_comm] at this
  · simp only [manageFrontmatterTags, hOpen, hClose, if_true]
    by_cases ht : includes (S "tags:") (content.take e)
    · cases mode <;> simp [ht] <;> exact ⟨_, rfl⟩
    · simp only [ht, Bool.false_eq_true, if_false]
      refine ⟨List.take e content ++ S "tags:\n" ++
        formatTagsAsYamlList
          (tags.map (fun tag =>
            normalizeSpelling (formatTag tag fmt) (lang.getD .uk))) fmt ++ S "\n", ?_⟩
      simp [List.append_assoc]

/-- C9 witness: a document with a title field and a body, tagged in replace
    mode; the closing delimiter sits at index 9. -/
theorem C9_suffix_preserved_witness :
    leadsWith (S "---\n") (S "---\nt: 1\n---\nbody") = true ∧
    idxFrom (S "---\n") (S "---\nt: 1\n---\nbody") 4 = some 9 ∧
    (leadsWith (S "---\n") ((S "---\nt: 1\n---\nbody").drop 9) = true ∧
      ∃ fm, manageFrontmatterTags (S "---\nt: 1\n---\nbody") [S "cat"] .lowercase
          .replace none none (some .uk) =
        fm ++ (S "---\nt: 1\n---\nbody").drop 9) :=
  ⟨by decide, by decide,
    C9_suffix_preserved (S "---\nt: 1\n---\nbody") [S "cat"] .lowercase .replace
      none none (some .uk) 9 (by decide) (by decide)⟩

/-! Character-level facts about the ASCII case maps. -/

theorem toLowerC_toLowerC (c : Nat) : toLowerC (toLowerC c) = toLowerC c := by
  simp only [toLowerC]
  split_ifs with h1 h2 h3 <;>
    simp only [Bool.and_eq_true, decide_eq_true_eq] at * <;> omega

theorem toLowerC_toUpperC (c : Nat) : toLowerC (toUpperC c) = toLowerC c := by
  simp only [toLowerC, toUpperC]
  split_ifs with h1 h2 h3 h4 h5 <;>
    simp only [Bool.and_eq_true, decide_eq_true_eq] at * <;> omega

theorem lower_lower (l : Str) : lower (lower l) = lower l := by
  simp only [lower, List.map_map]
  exact List.map_congr_left (fun c _ => toLowerC_toLowerC c)

theorem lower_append (a b : Str) : lower (a ++ b) = lower a ++ lower b :=
  List.map_append toLowerC a b

/-! The titlecase branch of formatTag leaves the lowercased string unchanged. -/

theorem lower_joinChar (sep : Nat) (ws : List Str) :
    lower (joinChar sep ws) = joinChar (toLowerC sep) (ws.map lower) := by
  induction ws with
  | nil => rfl
  | cons w ws ih =>
    cases ws with
    | nil => rfl
    | cons w2 ws2 =>
      simp only [joinChar, lower, List.map_append, List.map_cons]
      rw [← lower, ← lower, ih]
      rfl

theorem lower_titleWordJS (w : Str) : lower (titleWordJS w) = lower w := by
  cases w with
  | nil => rfl
  | cons c rest =>
    simp only [titleWordJS, lower, List.map_cons, List.map_map]
    rw [toLowerC_toUpperC]
    congr 1
    exact List.map_congr_left (fun d _ => toLowerC_toLowerC d)

theorem splitChar_ne_nil (sep : Nat) (l : Str) : splitChar sep l ≠ [] := by
  cases l with
  | nil => simp [splitChar]
  | cons c rest =>
    simp only [splitChar]
    split
    · simp
    · split <;> simp

theorem joinChar_splitChar (sep : Nat) (l : Str) :
    joinChar sep (splitChar sep l) = l := by
  induction l with
  | nil => rfl
  | cons c rest ih =>
    simp only [splitChar]
    by_cases h : c == sep
    · simp only [h, if_true]
      match hr : splitChar sep rest with
      | [] => exact absurd hr (splitChar_ne_nil sep rest)
      | p :: ps =>
        rw [hr] at ih
        simp only [joinChar]
        cases ps with
        | nil =>
          simp only [joinChar] at ih ⊢
          simp [ih, (by simpa using h : c = sep)]
        | cons q qs =>
          rw [show ([] : Str) ++ sep :: joinChar sep (p :: q :: qs) =
            sep :: joinChar sep (p :: q :: qs) from rfl]
          rw [ih, (by simpa using h : c = sep)]
    · simp only [h, if_false]
      match hr : splitChar sep rest with
      | [] => exact absurd hr (splitChar_ne_nil sep rest)
      | p :: ps =>
        rw [hr] at ih
        cases ps with
        | nil =>
          simp only [joinChar] at ih ⊢
          rw [ih]
        | cons q qs =>
          simp only [joinChar] at ih ⊢
          rw [List.cons_append, ih]

theorem lower_titlecase (l : Str) :
    lower (joinChar 45 ((splitChar 45 l).map titleWordJS)) = lower l := by
  rw [lower_joinChar, List.map_map]
  have h1 : (splitChar 45 l).map (lower ∘ titleWordJS) = (splitChar 45 l).map lower :=
    List.map_congr_left (fun w _ => lower_titleWordJS w)
  have h2 : toLowerC 45 = 45 := by decide
  have h3 : joinChar 45 ((splitChar 45 l).map lower) =
      lower (joinChar 45 (splitChar 45 l)) := by
    rw [lower_joinChar, h2]
  rw [h2, h1, h3, joinChar_splitChar]

theorem lower_formatTag (t : Str) (f : TagCaseFormat) :
    lower (formatTag t f) = lower (wsRunsToDash (stripQuotes t)) := by
  cases f
  · exact lower_lower _
  · simp only [formatTag, lower, List.map_map]
    exact List.map_congr_left (fun c _ => toLowerC_toUpperC c)
  · exact lower_titlecase _
  · rfl

theorem nfc_eq_of_lower_eq {a b : Str} (h : lower a = lower b) :
    normalizeForComparison a = normalizeForComparison b := by
  simp only [normalizeForComparison, h]

/-! Stage-identity lemmas for the idempotence of the comparison key. -/

theorem mem_wsRunsToDashGo {c : Nat} {b : Bool} {l : Str}
    (h : c ∈ wsRunsToDashGo b l) : c = 45 ∨ (c ∈ l ∧ isWs c = false) := by
  induction l generalizing b with
  | nil => simp [wsRunsToDashGo] at h
  | cons d rest ih =>
    simp only [wsRunsToDashGo] at h
    split at h
    · split at h
      · rcases ih h with h | ⟨h1, h2⟩
        · exact Or.inl h
        · exact Or.inr ⟨List.mem_cons_of_mem _ h1, h2⟩
      · rcases List.mem_cons.mp h with rfl | h
        · exact Or.inl rfl
        · rcases ih h with h | ⟨h1, h2⟩
          · exact Or.inl h
          · exact Or.inr ⟨List.mem_cons_of_mem _ h1, h2⟩
    · next hd =>
        rcases List.mem_cons.mp h with rfl | h
        · exact Or.inr ⟨List.mem_cons_self _ _, by simpa using hd⟩
        · rcases ih h with h | ⟨h1, h2⟩
          · exact Or.inl h
          · exact Or.inr ⟨List.mem_cons_of_mem _ h1, h2⟩

theorem mem_collapseDashRunsGo {c : Nat} {b : Bool} {l : Str}
    (h : c ∈ collapseDashRunsGo b l) : c = 45 ∨ c ∈ l := by
  induction l generalizing b with
  | nil => simp [collapseDashRunsGo] at h
  | cons d rest ih =>
    simp only [collapseDashRunsGo] at h
    split at h
    · split at h
      · rcases ih h with h | h
        · exact Or.inl h
        · exact Or.inr (List.mem_cons_of_mem _ h)
      · rcases List.mem_cons.mp h with rfl | h
        · exact Or.inl rfl
        · rcases ih h with h | h
          · exact Or.inl h
          · exact Or.inr (List.mem_cons_of_mem _ h)
    · rcases List.mem_cons.mp h with rfl | h
      · exact Or.inr (List.mem_cons_self _ _)
      · rcases ih h with h | h
        · exact Or.inl h
        · exact Or.inr (List.mem_cons_of_mem _ h)

theorem lower_id_of {l : Str} (h : ∀ c ∈ l, toLowerC c = c) : lower l = l := by
  conv_rhs => rw [← List.map_id l]
  exact List.map_congr_left h

theorem wsRunsToDashGo_id {b : Bool} {l : Str} (h : ∀ c ∈ l, isWs c = false) :
    wsRunsToDashGo b l = l := by
  induction l generalizing b with
  | nil => rfl
  | cons d rest ih =>
    have hd := h d (List.mem_cons_self d rest)
    simp only [wsRunsToDashGo, hd, Bool.false_eq_true, if_false]
    rw [ih (fun c hc => h c (List.mem_cons_of_mem d hc))]

theorem collapseDashRunsGo_head {l : Str} {c : Nat} {rest : Str}
    (h : collapseDashRunsGo true l = c :: rest) : c ≠ 45 := by
  induction l generalizing c rest with
  | nil => simp [collapseDashRunsGo] at h
  | cons d tail ih =>
    simp only [collapseDashRunsGo, if_true] at h
    split at h
    · exact ih h
    · next hd =>
        cases h
        intro hc
        exact hd (by simp [hc])

theorem collapseDashRunsGo_chain (b : Bool) (l : Str) :
    List.Chain' (fun a c => ¬(a = 45 ∧ c = 45)) (collapseDashRunsGo b l) := by
  induction l generalizing b with
  | nil => simp [collapseDashRunsGo]
  | cons d tail ih =>
    simp only [collapseDashRunsGo]
    split
    · next hd =>
        split
        · exact ih true
        · rw [List.chain'_cons']
          refine ⟨?_, ih true⟩
          intro y hy
          match hgo : collapseDashRunsGo true tail with
          | [] => rw [hgo] at hy; simp at hy
          | z :: zs =>
            rw [hgo] at hy
            simp only [List.head?_cons, Option.mem_def, Option.some.injEq] at hy
            subst hy
            intro ⟨_, hz⟩
            exact collapseDashRunsGo_head hgo hz
    · next hd =>
        rw [List.chain'_cons']
        refine ⟨?_, ih false⟩
        intro y hy
        intro ⟨hdc, _⟩
        exact hd (by simp [hdc])

theorem collapseDashRunsGo_id_aux : ∀ (l : Str) (b : Bool),
    List.Chain' (fun a c => ¬(a = 45 ∧ c = 45)) l →
    (b = true → ∀ c rest2, l = c :: rest2 → c ≠ 45) →
    collapseDashRunsGo b l = l := by
  intro l
  induction l with
  | nil => intro b _ _; rfl
  | cons d tail ih =>
    intro b hch hhead
    by_cases hd : d = 45
    · subst hd
      have hb : b = false := by
        cases b with
        | false => rfl
        | true => exact absurd rfl (hhead rfl 45 tail rfl)
      subst hb
      simp only [collapseDashRunsGo, if_true, Bool.false_eq_true, if_false]
      have : (45 : Nat) == 45 := by decide
      rw [if_pos this]
      congr 1
      apply ih true (List.Chain'.tail hch)
      intro _ c rest2 htail
      rw [List.chain'_cons'] at hch
      have := hch.1 c (by rw [htail]; rfl)
      intro hc
      exact this ⟨rfl, hc⟩
    · simp only [collapseDashRunsGo]
      rw [if_neg (by simpa using hd)]
      congr 1
      exact ih false (List.Chain'.tail hch) (by intro h; cases h)

theorem nfc_chars {t : Str} : ∀ c ∈ normalizeForComparison t,
    toLowerC c = c ∧ keepC c = true ∧ isWs c = false := by
  intro c hc
  rcases mem_collapseDashRunsGo hc with rfl | hc2
  · exact ⟨by decide, by decide, by decide⟩
  · rcases mem_wsRunsToDashGo hc2 with rfl | ⟨hc3, hws⟩
    · exact ⟨by decide, by decide, by decide⟩
    · have hkeep : keepC c = true := List.of_mem_filter hc3
      have hmem : c ∈ lower t := List.mem_of_mem_filter hc3
      obtain ⟨d, _, rfl⟩ := List.mem_map.mp hmem
      exact ⟨toLowerC_toLowerC d, hkeep, hws⟩

theorem nfc_idem (t : Str) :
    normalizeForComparison (normalizeForComparison t) = normalizeForComparison t := by
  have hchars := @nfc_chars t
  have h1 : lower (normalizeForComparison t) = normalizeForComparison t :=
    lower_id_of (fun c hc => (hchars c hc).1)
  have h2 : (normalizeForComparison t).filter keepC = normalizeForComparison t :=
    List.filter_eq_self.mpr (fun c hc => (hchars c hc).2.1)
  have h3 : wsRunsToDash (normalizeForComparison t) = normalizeForComparison t := by
    unfold wsRunsToDash
    exact wsRunsToDashGo_id (fun c hc => (hchars c hc).2.2)
  have h4 : collapseDashRuns (normalizeForComparison t) = normalizeForComparison t := by
    unfold collapseDashRuns
    apply collapseDashRunsGo_id_aux _ false ?_ (by intro h; cases h)
    have := collapseDashRunsGo_chain false (wsRunsToDash ((lower t).filter keepC))
    simpa [normalizeForComparison, collapseDashRuns] using this
  conv_lhs => rw [normalizeForComparison, h1, h2, h3, h4]

/-- C7: the comparison key is idempotent, and the key of a formatted tag does
    not depend on which of the four case formats was applied. -/
theorem C7_comparison_key_stable :
    (∀ t : Str,
      normalizeForComparison (normalizeForComparison t) = normalizeForComparison t) ∧
    (∀ (t : Str) (f1 f2 : TagCaseFormat),
      normalizeForComparison (formatTag t f1) = normalizeForComparison (formatTag t f2)) := by
  refine ⟨nfc_idem, ?_⟩
  intro t f1 f2
  exact nfc_eq_of_lower_eq ((lower_formatTag t f1).trans (lower_formatTag t f2).symm)

/-! The comparison key of a formatted tag equals the comparison key of the
    raw tag: formatting only strips quotes, merges whitespace into hyphens
    and changes case, and the key normalizes all three away. -/

theorem isWs_toLowerC (c : Nat) : isWs (toLowerC c) = isWs c := by
  simp only [toLowerC]
  split_ifs with h
  · simp only [Bool.and_eq_true, decide_eq_true_eq] at h
    have h1 : isWs (c + 32) = false := by
      simp only [isWs, Bool.or_eq_false_iff, beq_eq_false_iff_ne, ne_eq]
      omega
    have h2 : isWs c = false := by
      simp only [isWs, Bool.or_eq_false_iff, beq_eq_false_iff_ne, ne_eq]
      omega
    rw [h1, h2]
  · rfl

theorem lower_wsRunsToDashGo (b : Bool) (l : Str) :
    lower (wsRunsToDashGo b l) = wsRunsToDashGo b (lower l) := by
  simp only [lower]
  induction l generalizing b with
  | nil => rfl
  | cons c rest ih =>
    simp only [wsRunsToDashGo, List.map_cons, isWs_toLowerC]
    split
    · split
      · exact ih true
      · simp only [List.map_cons, show toLowerC 45 = 45 from by decide]
        rw [ih true]
    · simp only [List.map_cons]
      rw [ih false]

/-- Lemma A: collapsing hyphen runs after turning whitespace runs into hyphens
    is the same as collapsing separator runs directly. The flags must agree:
    being inside a whitespace run implies being just after an emitted hyphen. -/
theorem collapse_wsdash_eq_sep : ∀ (l : Str) (w d : Bool), (w = true → d = true) →
    collapseDashRunsGo d (wsRunsToDashGo w l) = sepCollapseGo d l := by
  intro l
  induction l with
  | nil => intro w d _; rfl
  | cons c rest ih =>
    intro w d hwd
    by_cases hws : isWs c = true
    · have hsep : isSep c = true := by simp [isSep, hws]
      cases w with
      | true =>
        have hd : d = true := hwd rfl
        subst hd
        simp only [wsRunsToDashGo, hws, if_true, sepCollapseGo, hsep]
        exact ih true true (fun _ => rfl)
      | false =>
        simp only [wsRunsToDashGo, hws, if_true, Bool.false_eq_true, if_false,
          sepCollapseGo, hsep]
        cases d with
        | true =>
          simp only [collapseDashRunsGo, if_true]
          rw [if_pos (by decide : ((45 : Nat) == 45) = true)]
          exact ih true true (fun _ => rfl)
        | false =>
          simp only [collapseDashRunsGo, Bool.false_eq_true, if_false]
          rw [if_pos (by decide : ((45 : Nat) == 45) = true)]
          rw [ih true true (fun _ => rfl)]
    · have hw2 : wsRunsToDashGo w (c :: rest) = c :: wsRunsToDashGo false rest := by
        simp [wsRunsToDashGo, hws]
      rw [hw2]
      by_cases hc45 : c = 45
      · subst hc45
        have hsep : isSep 45 = true := by decide
        simp only [sepCollapseGo, hsep, if_true, collapseDashRunsGo]
        rw [if_pos (by decide : ((45 : Nat) == 45) = true)]
        cases d with
        | true =>
          simp only [if_true]
          exact ih false true (fun h => by cases h)
        | false =>
          simp only [Bool.false_eq_true, if_false]
          rw [ih false true (fun h => by cases h)]
      · have hsep : isSep c = false := by simp [isSep, hws, hc45]
        simp only [sepCollapseGo, hsep, Bool.false_eq_true, if_false,
          collapseDashRunsGo]
        rw [if_neg (by simpa using hc45)]
        rw [ih false false (fun h => by cases h)]

/-- Lemma B: after dropping the non-kept characters, collapsing separator runs
    does not see whether whitespace runs were already merged into hyphens. -/
theorem sep_filter_wsdash : ∀ (l : Str) (w s : Bool), (w = true → s = true) →
    sepCollapseGo s ((wsRunsToDashGo w l).filter keepC) =
      sepCollapseGo s (l.filter keepC) := by
  intro l
  induction l with
  | nil => intro w s _; rfl
  | cons c rest ih =>
    intro w s hws
    by_cases hw : isWs c = true
    · have hkeep : keepC c = true := by simp [keepC, hw]
      have hsep : isSep c = true := by simp [isSep, hw]
      cases w with
      | true =>
        have hs : s = true := hws rfl
        subst hs
        simp only [wsRunsToDashGo, hw, if_true, List.filter_cons, hkeep,
          sepCollapseGo, hsep]
        exact ih true true (fun _ => rfl)
      | false =>
        simp only [wsRunsToDashGo, hw, if_true, Bool.false_eq_true, if_false,
          List.filter_cons, hkeep]
        rw [show keepC 45 = true from by decide]
        simp only [sepCollapseGo, hsep]
        rw [show isSep 45 = true from by decide]
        simp only [if_true]
        cases s with
        | true =>
          simp only [if_true]
          exact ih true true (fun _ => rfl)
        | false =>
          simp only [Bool.false_eq_true, if_false]
          rw [ih true true (fun _ => rfl)]
    · have hw2 : wsRunsToDashGo w (c :: rest) = c :: wsRunsToDashGo false rest := by
        simp [wsRunsToDashGo, hw]
      rw [hw2]
      by_cases hkeep : keepC c = true
      · simp only [List.filter_cons, hkeep, if_true, sepCollapseGo]
        by_cases hsep : isSep c = true
        · simp only [hsep, if_true]
          cases s with
          | true =>
            simp only [if_true]
            exact ih false true (fun h => by cases h)
          | false =>
            simp only [Bool.false_eq_true, if_false]
            rw [ih false true (fun h => by cases h)]
        · simp only [hsep]
          simp only [Bool.false_eq_true, if_false]
          rw [ih false false (fun h => by cases h)]
      · simp only [List.filter_cons, hkeep]
        simp only [Bool.false_eq_true, if_false]
        exact ih false s (fun h => by cases h)

theorem nfc_eq_sep (l : Str) :
    normalizeForComparison l = sepCollapseGo false ((lower l).filter keepC) := by
  simp only [normalizeForComparison, collapseDashRuns, wsRunsToDash]
  exact collapse_wsdash_eq_sep _ false false (fun h => by cases h)

theorem nfc_wsRunsToDash (l : Str) :
    normalizeForComparison (wsRunsToDash l) = normalizeForComparison l := by
  rw [nfc_eq_sep, nfc_eq_sep]
  simp only [wsRunsToDash]
  rw [lower_wsRunsToDashGo]
  exact sep_filter_wsdash (lower l) false false (fun h => by cases h)

theorem toLowerC_eq_34 (c : Nat) : (toLowerC c = 34) ↔ (c = 34) := by
  simp only [toLowerC]
  split_ifs with h
  · simp only [Bool.and_eq_true, decide_eq_true_eq] at h
    omega
  · exact Iff.rfl

theorem lower_stripQuotes (l : Str) : lower (stripQuotes l) = stripQuotes (lower l) := by
  induction l with
  | nil => rfl
  | cons c rest ih =>
    simp only [stripQuotes, lower, List.map_cons, List.filter_cons]
    by_cases hc : c = 34
    · subst hc
      rw [show ((34 : Nat) != 34) = false from by decide]
      rw [show toLowerC 34 = 34 from by decide]
      rw [show ((34 : Nat) != 34) = false from by decide]
      simpa [stripQuotes, lower] using ih
    · rw [show (c != 34) = true from by simpa using hc]
      have : (toLowerC c != 34) = true := by
        simp only [bne_iff_ne, ne_eq]
        exact fun h => hc ((toLowerC_eq_34 c).mp h)
      rw [this]
      simp only [List.map_cons]
      simpa [stripQuotes, lower] using ih

theorem keepC_34 (c : Nat) : (keepC c && (c != 34)) = keepC c := by
  by_cases h : c = 34
  · subst h; decide
  · rw [show (c != 34) = true from by simpa using h]
    simp

theorem nfc_stripQuotes (l : Str) :
    normalizeForComparison (stripQuotes l) = normalizeForComparison l := by
  rw [nfc_eq_sep, nfc_eq_sep, lower_stripQuotes]
  congr 1
  simp only [stripQuotes, List.filter_filter]
  exact List.filter_congr (fun c _ => keepC_34 c)

/-- The comparison key is invariant under formatTag, for every case format. -/
theorem nfc_formatTag (t : Str) (f : TagCaseFormat) :
    normalizeForComparison (formatTag t f) = normalizeForComparison t := by
  have h1 : normalizeForComparison (formatTag t f) =
      normalizeForComparison (wsRunsToDash (stripQuotes t)) :=
    nfc_eq_of_lower_eq (lower_formatTag t f)
  rw [h1, nfc_wsRunsToDash, nfc_stripQuotes]

/-- C1 counterexample: in append mode the new tags are de-duplicated only
    against the existing tags, not against each other, so with existing tags
    ["cat"] and new tags ["dog", "dog"] the resulting tag field holds "dog"
    twice: two result tags share a comparison key, refuting the claimed
    conjunction. The first conjunct shows the full merge: the resulting
    document repeats the '- dog' line. -/
theorem C1_append_dedup_cex :
    manageFrontmatterTags (S "---\ntags:\n- cat\n---\nb") [S "dog", S "dog"]
        .lowercase .append none none (some .uk) =
      S "---\ntags:\n- cat\n- dog\n- dog\n---\nb" ∧
    ¬ ((appendCombinedTags [S "cat"] [S "dog", S "dog"] .lowercase .uk).map
          (fun t => formatTag t .lowercase)).Pairwise
        (fun a b => normalizeForComparison a ≠ normalizeForComparison b) ∧
    S "color" ∈ (appendCombinedTags [S "colour"] [] .lowercase .us).map
        (fun t => formatTag t .lowercase) ∧
    normalizeForComparison (S "color") ∉
      ([S "colour"] ++ ([] : List Str)).map normalizeForComparison := by
  refine ⟨by decide, by decide, by decide, by decide⟩

/-- C1 amended: for all existing tags E, new tags N, case format and language
    preference, the tag field computed by the append branch of
    manageFrontmatterTags (the case-formatted appendCombinedTags list)
    (a) has at most size(E) + size(N) entries,
    (b) every entry's comparison key occurs among the comparison keys of the
    spelling-normalized E or of the formatted-and-normalized N (the keys of
    E and N themselves can change, because spelling normalization may rewrite
    a regional variant), and
    (c) no entry beyond the existing ones shares a comparison key with any
    spelling-normalized existing tag (duplicates inside N itself, or already
    inside E, are not removed). -/
theorem C1_append_invariants (E N : List Str) (fmt : TagCaseFormat)
    (lang : LanguagePreference) :
    ((appendCombinedTags E N fmt lang).map (fun t => formatTag t fmt)).length ≤
      E.length + N.length ∧
    (∀ r ∈ (appendCombinedTags E N fmt lang).map (fun t => formatTag t fmt),
      normalizeForComparison r ∈
        (E.map (fun t => normalizeSpelling t lang) ++
          N.map (fun t => normalizeSpelling (formatTag t fmt) lang)).map
          normalizeForComparison) ∧
    (∀ r ∈ ((appendCombinedTags E N fmt lang).map (fun t => formatTag t fmt)).drop
        E.length,
      ∀ e ∈ E.map (fun t => normalizeSpelling t lang),
        normalizeForComparison r ≠ normalizeForComparison e) := by
  refine ⟨?_, ?_, ?_⟩
  · simp only [appendCombinedTags, List.length_map, List.length_append]
    have := List.length_filter_le
      (fun tag => !((E.map (fun t => normalizeSpelling t lang)).any
        (fun existingTag => normalizeForComparison existingTag ==
          normalizeForComparison (normalizeSpelling (formatTag tag fmt) lang)))) N
    omega
  · intro r hr
    simp only [appendCombinedTags, List.map_append, List.mem_append] at hr
    rcases hr with hr | hr
    · simp only [List.map_map, List.mem_map, Function.comp] at hr
      obtain ⟨e, he, rfl⟩ := hr
      rw [nfc_formatTag]
      exact List.mem_map_of_mem _ (List.mem_append_left _ (List.mem_map_of_mem _ he))
    · simp only [List.map_map, List.mem_map, Function.comp] at hr
      obtain ⟨n, hn, rfl⟩ := hr
      rw [nfc_formatTag]
      exact List.mem_map_of_mem _
        (List.mem_append_right _ (List.mem_map_of_mem _ (List.mem_of_mem_filter hn)))
  · intro r hr e he
    simp only [appendCombinedTags, List.map_append] at hr
    have hlen : ((E.map (fun t => normalizeSpelling t lang)).map
        (fun t => formatTag t fmt)).length = E.length := by simp
    rw [← hlen, List.drop_left] at hr
    simp only [List.map_map, List.mem_map, Function.comp] at hr
    obtain ⟨n, hn, rfl⟩ := hr
    have hpred := (List.mem_filter.mp hn).2
    simp only [Bool.not_eq_true', List.any_eq_false] at hpred
    rw [nfc_formatTag]
    exact fun hcontra => hpred e he (beq_iff_eq.mpr hcontra.symm)

/-- C1 witness: the invariants instantiated at existing ["cat"], new ["dog"],
    lowercase format and UK preference, with the membership hypothesis of
    clause (b) discharged at the concrete result entry "dog". -/
theorem C1_append_invariants_witness :
    S "dog" ∈ ((appendCombinedTags [S "cat"] [S "dog"] .lowercase .uk).map
        (fun t => formatTag t .lowercase)) ∧
    normalizeForComparison (S "dog") ∈
      ([S "cat"].map (fun t => normalizeSpelling t .uk) ++
        [S "dog"].map (fun t => normalizeSpelling (formatTag t .lowercase) .uk)).map
        normalizeForComparison :=
  ⟨by decide,
    (C1_append_invariants [S "cat"] [S "dog"] .lowercase .uk).2.1 (S "dog") (by decide)⟩

/-- C6: merging the new tag "Color-Theory" in append mode with UK preference
    into a document whose tag field lists cat and colour-theory changes
    nothing: the US spelling is normalized to the UK variant, recognized as a
    duplicate of the existing entry, and no tag is added. The second conjunct
    shows the parse of the existing field, the third the combined list. The
    spelling table itself is modelled from the spec (its JSON data file is not
    in the source tree). -/
theorem C6_uk_spelling_dedup :
    manageFrontmatterTags (S "---\ntags:\n- cat\n- colour-theory\n---\nbody")
        [S "Color-Theory"] .lowercase .append none none (some .uk) =
      S "---\ntags:\n- cat\n- colour-theory\n---\nbody" ∧
    extractExistingTags (S "---\ntags:\n- cat\n- colour-theory\n") =
      [S "cat", S "colour-theory"] ∧
    appendCombinedTags [S "cat", S "colour-theory"] [S "Color-Theory"]
        .lowercase .uk = [S "cat", S "colour-theory"] := by
  exact ⟨by decide, by decide, by decide⟩

/-! General lemmas about leadsWith, subIdx and the index primitives, used to
    settle the frontmatter scanning on structured documents. -/

theorem leadsWith_self_append (p x : Str) : leadsWith p (p ++ x) = true := by
  induction p with
  | nil => rfl
  | cons c ps ih => simp [leadsWith, ih]

theorem leadsWith_append_of_le {pat z : Str} (h : pat.length ≤ z.length) (x : Str) :
    leadsWith pat (z ++ x) = leadsWith pat z := by
  induction pat generalizing z with
  | nil => rfl
  | cons c ps ih =>
    cases z with
    | nil => simp at h
    | cons d zs =>
      simp only [List.cons_append, leadsWith, List.append_eq]
      rw [ih (by simpa using h)]

theorem leadsWith_get {pat l : Str} (h : leadsWith pat l = true) :
    ∀ j, j < pat.length → l.get? j = pat.get? j := by
  induction pat generalizing l with
  | nil => intro j hj; simp at hj
  | cons c ps ih =>
    cases l with
    | nil => simp [leadsWith] at h
    | cons d zs =>
      simp only [leadsWith, Bool.and_eq_true, beq_iff_eq] at h
      intro j hj
      match j with
      | 0 => simp [h.1]
      | j + 1 => simpa using ih h.2 j (by simpa using hj)

theorem subIdx_single_append {c : Nat} (x y : Str) (hx : ∀ d ∈ x, d ≠ c) :
    subIdx [c] (x ++ c :: y) = some x.length := by
  induction x with
  | nil =>
    simp only [List.nil_append, subIdx]
    rw [if_pos (by simp [leadsWith])]
    rfl
  | cons d t ih =>
    simp only [List.cons_append, subIdx]
    rw [if_neg]
    · simp only [List.append_eq]
      rw [ih (fun e he => hx e (List.mem_cons_of_mem d he))]
      rfl
    · simp only [leadsWith, Bool.and_eq_true, beq_iff_eq]
      intro ⟨hc, _⟩
      exact hx d (List.mem_cons_self d t) hc.symm

theorem subIdx_none_no_occ {pat l : Str} (h : subIdx pat l = none) :
    ∀ m, leadsWith pat (l.drop m) = false := by
  induction l with
  | nil =>
    intro m
    simp only [subIdx] at h
    split at h
    · cases h
    · next hlw =>
        simp only [List.drop_nil]
        simpa using hlw
  | cons c rest ih =>
    intro m
    simp only [subIdx] at h
    split at h
    · cases h
    · next hlw =>
        match m with
        | 0 => simpa using hlw
        | m + 1 =>
          have : subIdx pat rest = none := by
            cases hr : subIdx pat rest with
            | none => rfl
            | some k => rw [hr] at h; cases h
          simpa using ih this m

theorem includes_of_leadsWith {pat l : Str} {n : Nat}
    (h : leadsWith pat (l.drop n) = true) : includes pat l = true := by
  unfold includes
  cases hi : subIdx pat l with
  | some k => rfl
  | none =>
    rw [subIdx_none_no_occ hi n] at h
    cases h

theorem includes_single_false {c : Nat} {l : Str} (h : ∀ d ∈ l, d ≠ c) :
    includes [c] l = false := by
  unfold includes
  rw [subIdx_eq_none]
  · rfl
  · intro m
    rcases hd : l.drop m with _ | ⟨e, t⟩
    · rfl
    · have he : e ∈ l :=
        List.mem_of_mem_drop (by rw [hd]; exact List.mem_cons_self e t)
      have hce : (c == e) = false :=
        beq_eq_false_iff_ne.mpr (fun hh => h e he hh.symm)
      simp [leadsWith, hce]

theorem idxFrom_eq_some {pat content : Str} {s e : Nat} (hse : s ≤ e)
    (hAt : leadsWith pat (content.drop e) = true)
    (hMin : ∀ m, m < e → s ≤ m → leadsWith pat (content.drop m) = false) :
    idxFrom pat content s = some e := by
  unfold idxFrom
  rw [subIdx_eq_some (n := e - s)]
  · simp only [Option.map_some']
    congr 1
    omega
  · rw [List.drop_drop, show s + (e - s) = e from by omega]
    exact hAt
  · intro m hm
    rw [List.drop_drop]
    exact hMin (s + m) (by omega) (by omega)

theorem jsSubstring_nat (l : Str) (a b : Nat) (hab : a ≤ b) (hb : b ≤ l.length) :
    jsSubstring l (a : Int) (b : Int) = (l.drop a).take (b - a) := by
  unfold jsSubstring
  simp only [Int.toNat_ofNat]
  rw [min_eq_left (by omega), min_eq_left hb, min_eq_left hab, max_eq_right hab]

theorem jsSubstringFrom_nat (l : Str) (a : Nat) :
    jsSubstringFrom l (a : Int) = l.drop a := by
  unfold jsSubstringFrom
  simp

theorem jsIndexOf_structured {c : Nat} (C x y : Str) (hx : ∀ d ∈ x, d ≠ c) :
    jsIndexOf [c] (C ++ x ++ c :: y) (C.length : Int) =
      ((C.length + x.length : Nat) : Int) := by
  unfold jsIndexOf
  simp only [Int.toNat_ofNat]
  rw [List.append_assoc, List.drop_left]
  rw [subIdx_single_append x y hx]
  simp only [Int.ofNat_eq_coe, Nat.cast_add]
  omega

/-- A pattern cannot begin strictly inside a short prefix and continue into a
    tail whose first character differs from every later pattern character. -/
theorem no_straddle {pat z rest2 : Str} {t : Nat}
    (hz1 : 1 ≤ z.length) (hz2 : z.length < pat.length)
    (hhead : rest2.get? 0 = some t)
    (hne : ∀ j, j < pat.length → 1 ≤ j → pat.get? j ≠ some t) :
    leadsWith pat (z ++ rest2) = false := by
  by_contra hcontra
  have hlw : leadsWith pat (z ++ rest2) = true := by
    cases h : leadsWith pat (z ++ rest2)
    · exact absurd h hcontra
    · rfl
  have := leadsWith_get hlw z.length hz2
  rw [List.get?_append_right (le_refl _)] at this
  rw [Nat.sub_self] at this
  rw [hhead] at this
  exact hne z.length hz2 hz1 this.symm

/-! Helper extraction lemmas for structured strings. -/

theorem drop_append_len {a b : Str} {n : Nat} (h : a.length = n) : (a ++ b).drop n = b := by
  subst h
  exact List.drop_left a b

theorem take_append_len {a b : Str} {n : Nat} (h : a.length = n) : (a ++ b).take n = a := by
  subst h
  exact List.take_left a b

theorem jsIndexOf_single_drop {c : Nat} {l : Str} {n : Nat} {x y : Str}
    (hdrop : l.drop n = x ++ c :: y) (hx : ∀ d ∈ x, d ≠ c) :
    jsIndexOf [c] l (n : Int) = ((n + x.length : Nat) : Int) := by
  unfold jsIndexOf
  simp only [Int.toNat_ofNat]
  rw [hdrop, subIdx_single_append x y hx]
  push_cast
  omega

theorem jsSubstring_mid {l pre seg rest2 : Str} (h : l = pre ++ (seg ++ rest2)) :
    jsSubstring l ((pre.length : Nat) : Int) ((pre.length + seg.length : Nat) : Int) =
      seg := by
  subst h
  rw [jsSubstring_nat _ _ _ (by omega)
    (by simp only [List.length_append]; omega)]
  rw [show pre.length + seg.length - pre.length = seg.length from by omega]
  rw [List.drop_left]
  exact List.take_left seg rest2

/-! The scanning loop of replaceTagsSection on a frontmatter whose tags
    section runs to the end of the block: starting at the newline that closes
    the 'tags:' line, the loop consumes every continuation line (no colon, not
    '---') and stops at the final newline of the frontmatter. -/

theorem rtsLoop_lines : ∀ (items : List Str) (C0 : Str) (fuel : Nat),
    items.length + 1 ≤ fuel →
    (∀ ln ∈ items, includes (S ":") (trim ln) = false ∧ trim ln ≠ S "---" ∧
      (∀ d ∈ ln, d ≠ 10)) →
    rtsLoop (C0 ++ [10] ++ linesFlat items) fuel (C0.length : Int) =
      (((C0 ++ [10] ++ linesFlat items).length : Int) - 1) := by
  intro items
  induction items with
  | nil =>
    intro C0 fuel hfuel _
    match fuel, hfuel with
    | f + 1, _ =>
      simp only [rtsLoop, linesFlat, List.append_nil, List.length_append,
        List.length_cons, List.length_nil]
      rw [if_neg (by push_cast; omega)]
      push_cast
      omega
  | cons ln rest ih =>
    intro C0 fuel hfuel hlines
    match fuel, hfuel with
    | f + 1, hfuel =>
      have hln := hlines ln (List.mem_cons_self ln rest)
      simp only [rtsLoop, linesFlat]
      rw [show S "\n" = [10] from by decide]
      rw [if_pos (by
        simp only [List.length_append, List.length_cons]
        push_cast
        omega)]
      have harg : (C0.length : Int) + 1 = ((C0.length + 1 : Nat) : Int) := by
        push_cast
        omega
      rw [harg]
      have hdrop : ((C0 ++ [10]) ++ (ln ++ 10 :: linesFlat rest)).drop (C0.length + 1) =
          ln ++ 10 :: linesFlat rest :=
        drop_append_len (by simp)
      rw [jsIndexOf_single_drop hdrop hln.2.2]
      rw [if_neg (by
        simp only [beq_iff_eq]
        omega)]
      have hpre : (C0 ++ [10]).length = C0.length + 1 := by simp
      have hsub : jsSubstring ((C0 ++ [10]) ++ (ln ++ 10 :: linesFlat rest))
          ((C0.length + 1 : Nat) : Int) ((C0.length + 1 + ln.length : Nat) : Int) =
          ln := by
        rw [show ((C0.length + 1 : Nat) : Int) = (((C0 ++ [10]).length : Nat) : Int) from
          by rw [hpre]]
        rw [show ((C0.length + 1 + ln.length : Nat) : Int) =
          (((C0 ++ [10]).length + ln.length : Nat) : Int) from by rw [hpre]]
        exact jsSubstring_mid rfl
      rw [hsub]
      rw [hln.1]
      simp only [Bool.false_or]
      rw [if_neg (by
        simp only [beq_iff_eq]
        exact hln.2.1)]
      have hfm : (C0 ++ [10]) ++ (ln ++ 10 :: linesFlat rest) =
          ((C0 ++ [10] ++ ln) ++ [10]) ++ linesFlat rest := by
        simp [List.append_assoc]
      have hlen : ((C0.length + 1 + ln.length : Nat) : Int) =
          ((C0 ++ [10] ++ ln).length : Int) := by
        have h9 : (C0 ++ [10] ++ ln).length = C0.length + 1 + ln.length := by
          simp
          omega
        rw [h9]
      rw [hfm, hlen]
      exact ih (C0 ++ [10] ++ ln) f (by simpa using Nat.lt_of_succ_le hfuel)
        (fun l2 hl2 => hlines l2 (List.mem_cons_of_mem ln hl2))

theorem jsSubstring_zero (l : Str) (n : Nat) (hn : n ≤ l.length) :
    jsSubstring l 0 (n : Int) = l.take n := by
  unfold jsSubstring
  simp only [Int.toNat_ofNat, Int.toNat_zero]
  rw [min_eq_left (by omega : (0 : Nat) ≤ l.length), min_eq_left hn]
  simp

theorem le_linesFlat_length (items : List Str) :
    items.length ≤ (linesFlat items).length := by
  induction items with
  | nil => simp [linesFlat]
  | cons ln rest ih =>
    simp only [linesFlat, List.length_cons, List.length_append]
    omega

theorem linesFlat_ends (items : List Str) (h : items ≠ []) :
    ∃ G, linesFlat items = G ++ [10] := by
  induction items with
  | nil => exact absurd rfl h
  | cons ln rest ih =>
    cases rest with
    | nil => exact ⟨ln, by simp [linesFlat]⟩
    | cons l2 r2 =>
      obtain ⟨G, hG⟩ := ih (by simp)
      refine ⟨ln ++ 10 :: G, ?_⟩
      show ln ++ 10 :: linesFlat (l2 :: r2) = (ln ++ 10 :: G) ++ [10]
      rw [hG]
      simp [List.append_assoc]

/-- replaceTagsSection on a frontmatter whose tags field starts right after a
    prefix A holding no (lowercased) 'tags:' occurrence, and runs to the end
    of the block: the whole field is replaced by the new list, and the final
    newline is kept. -/
theorem rts_structured (A r0 : Str) (items : List Str) (L : Str)
    (hr0 : ∀ d ∈ r0, d ≠ 10)
    (hitems : ∀ ln ∈ items, includes (S ":") (trim ln) = false ∧ trim ln ≠ S "---" ∧
      (∀ d ∈ ln, d ≠ 10))
    (htagsMin : ∀ m, m < A.length →
      leadsWith (S "tags:")
        ((lower (A ++ S "tags:" ++ r0 ++ [10] ++ linesFlat items)).drop m) = false) :
    replaceTagsSection (A ++ S "tags:" ++ r0 ++ [10] ++ linesFlat items) L =
      A ++ S "tags:\n" ++ L ++ [10] := by
  set fm := A ++ S "tags:" ++ r0 ++ [10] ++ linesFlat items with hfm
  have hfmA : fm = A ++ (S "tags:" ++ (r0 ++ ([10] ++ linesFlat items))) := by
    simp [hfm, List.append_assoc]
  have hts : subIdx (S "tags:") (lower fm) = some A.length := by
    apply subIdx_eq_some
    · have h1 : lower fm =
          lower A ++ lower (S "tags:" ++ (r0 ++ ([10] ++ linesFlat items))) := by
        rw [← lower_append, ← hfmA]
      have h2 : (lower fm).drop A.length =
          lower (S "tags:" ++ (r0 ++ ([10] ++ linesFlat items))) := by
        rw [h1]
        exact drop_append_len (by simp [lower])
      rw [h2, lower_append, show lower (S "tags:") = S "tags:" from by decide]
      exact leadsWith_self_append _ _
    · exact htagsMin
  have hdrop : fm.drop A.length = (S "tags:" ++ r0) ++ 10 :: linesFlat items := by
    rw [show fm = A ++ ((S "tags:" ++ r0) ++ 10 :: linesFlat items) from by
      simp [hfm, List.append_assoc]]
    exact drop_append_len rfl
  have hx : ∀ d ∈ S "tags:" ++ r0, d ≠ 10 := by
    have htg : ∀ d ∈ S "tags:", d ≠ 10 := by decide
    intro d hd
    rcases List.mem_append.mp hd with hd | hd
    · exact htg d hd
    · exact hr0 d hd
  have hC0 : ((A.length + (S "tags:" ++ r0).length : Nat) : Int) =
      (((A ++ S "tags:" ++ r0).length : Nat) : Int) := by
    have h9 : (A ++ S "tags:" ++ r0).length = A.length + (S "tags:" ++ r0).length := by
      simp only [List.length_append]
      omega
    rw [h9]
  have hloop : rtsLoop fm (fm.length + 2) (((A ++ S "tags:" ++ r0).length : Nat) : Int) =
      ((fm.length : Int) - 1) := by
    have hfm2 : fm = (A ++ S "tags:" ++ r0) ++ [10] ++ linesFlat items := by
      simp [hfm, List.append_assoc]
    rw [hfm2]
    apply rtsLoop_lines items (A ++ S "tags:" ++ r0) (fm.length + 2)
    · have := le_linesFlat_length items
      have h9 : fm.length = (A ++ S "tags:" ++ r0).length + 1 + (linesFlat items).length := by
        rw [hfm2]
        simp only [List.length_append, List.length_cons, List.length_nil]
      omega
    · exact hitems
  unfold replaceTagsSection
  simp only [hts]
  rw [show S "\n" = [10] from by decide]
  rw [jsIndexOf_single_drop hdrop hx, hC0, hloop]
  have hA : jsSubstring fm 0 (A.length : Int) = A := by
    rw [jsSubstring_zero fm A.length (by rw [hfmA]; simp)]
    rw [hfmA]
    exact take_append_len rfl
  rw [hA]
  obtain ⟨G, hG, hGlen⟩ : ∃ G, fm = G ++ [10] ∧ fm.length = G.length + 1 := by
    cases hi : items with
    | nil =>
      refine ⟨A ++ S "tags:" ++ r0, ?_, ?_⟩
      · simp [hfm, hi, linesFlat]
      · simp only [hfm, hi, linesFlat, List.append_nil, List.length_append,
          List.length_cons, List.length_nil]
    | cons ln rest =>
      obtain ⟨G2, hG2⟩ := linesFlat_ends items (by rw [hi]; simp)
      refine ⟨A ++ S "tags:" ++ r0 ++ [10] ++ G2, ?_, ?_⟩
      · rw [hfm, hG2]
        simp [List.append_assoc]
      · rw [hfm, hG2]
        simp only [List.length_append, List.length_cons, List.length_nil]
        omega
  have hlast : jsSubstringFrom fm ((fm.length : Int) - 1) = [10] := by
    unfold jsSubstringFrom
    have h9 : ((fm.length : Int) - 1).toNat = G.length := by omega
    rw [h9, hG]
    exact drop_append_len rfl
  rw [hlast]

/-! Lemmas for the regex scan of extractExistingTags on structured inputs. -/

theorem lower_drop (l : Str) (n : Nat) : lower (l.drop n) = (lower l).drop n := by
  simp [lower, List.map_drop]

theorem scanFirst_skip {α : Type} (f : Str → Option α) :
    ∀ (n : Nat) (l : Str), (∀ m, m < n → f (l.drop m) = none) → n ≤ l.length →
      scanFirst f l = scanFirst f (l.drop n) := by
  intro n
  induction n with
  | zero => intro l _ _; rfl
  | succ n ih =>
    intro l hm hn
    cases l with
    | nil => simp at hn
    | cons c rest =>
      have h0 := hm 0 (by omega)
      simp only [List.drop_zero] at h0
      simp only [scanFirst, h0]
      have := ih rest (fun m hm2 => by simpa using hm (m + 1) (by omega))
        (by simpa using hn)
      simpa using this

theorem mR1At_none {l : Str} (h : ciLeadsWith (S "tags:") l = false) : mR1At l = none := by
  unfold mR1At
  rw [h]
  rfl

theorem mR2At_none {l : Str} (h : ciLeadsWith (S "tags:") l = false) : mR2At l = none := by
  unfold mR2At
  rw [h]
  rfl

theorem mR3At_none {l : Str} (h : ciLeadsWith (S "tags:") l = false) : mR3At l = none := by
  unfold mR3At
  rw [h]
  rfl

theorem ciLeadsWith_eq {pat l : Str} :
    ciLeadsWith pat l = leadsWith (lower pat) (lower l) := rfl

theorem leadsWith_head_ne {pat l : Str} (p0 c0 : Nat)
    (hp : pat.get? 0 = some p0) (hl : l.get? 0 = some c0) (hne : p0 ≠ c0) :
    leadsWith pat l = false := by
  cases pat with
  | nil => simp at hp
  | cons p ps =>
    cases l with
    | nil => simp at hl
    | cons c cs =>
      simp only [List.get?_cons_zero, Option.some.injEq] at hp hl
      subst hp
      subst hl
      simp only [leadsWith, Bool.and_eq_false_iff]
      left
      exact beq_eq_false_iff_ne.mpr hne

/-- No closing-delimiter sequence occurs inside a block of newline-terminated
    lines, whatever follows the block, provided no single line (with its
    newline) contains one: the pattern holds its newline only in last
    position, so a match cannot cross a line boundary. -/
theorem linesFlat_no_delim : ∀ (lines : List Str) (tail : Str),
    (∀ ln ∈ lines, subIdx (S "---\n") (ln ++ [10]) = none) →
    ∀ q, q < (linesFlat lines).length →
      leadsWith (S "---\n") ((linesFlat lines ++ tail).drop q) = false := by
  intro lines
  induction lines with
  | nil => intro tail _ q hq; simp [linesFlat] at hq
  | cons ln rest ih =>
    intro tail hlines q hq
    have hview : linesFlat (ln :: rest) ++ tail =
        (ln ++ [10]) ++ (linesFlat rest ++ tail) := by
      simp [linesFlat, List.append_assoc]
    rw [hview]
    by_cases hcase : q + 4 ≤ ln.length + 1
    · have hdr : ((ln ++ [10]) ++ (linesFlat rest ++ tail)).drop q =
          (ln ++ [10]).drop q ++ (linesFlat rest ++ tail) := by
        have hq0 : q - (ln ++ [10]).length = 0 := by
          simp only [List.length_append, List.length_cons, List.length_nil]
          omega
        rw [List.drop_append_eq_append_drop, hq0]
        simp
      rw [hdr]
      rw [leadsWith_append_of_le (by
        simp only [List.length_drop, List.length_append, List.length_cons,
          List.length_nil]
        have : (S "---\n").length = 4 := by decide
        omega)]
      exact subIdx_none_no_occ (hlines ln (List.mem_cons_self ln rest)) q
    · by_cases hcase2 : q < ln.length + 1
      · by_contra hcontra
        have hlw : leadsWith (S "---\n")
            (((ln ++ [10]) ++ (linesFlat rest ++ tail)).drop q) = true := by
          cases hh : leadsWith (S "---\n")
            (((ln ++ [10]) ++ (linesFlat rest ++ tail)).drop q)
          · exact absurd hh hcontra
          · rfl
        have hj := leadsWith_get hlw (ln.length - q) (by
          have : (S "---\n").length = 4 := by decide
          omega)
        have hchar : (((ln ++ [10]) ++ (linesFlat rest ++ tail)).drop q).get?
            (ln.length - q) = some 10 := by
          rw [List.get?_drop]
          rw [List.get?_append (by
            simp only [List.length_append, List.length_cons, List.length_nil]
            omega)]
          rw [show q + (ln.length - q) = ln.length from by omega]
          rw [List.get?_append_right (by simp)]
          simp
        rw [hchar] at hj
        have h4 : (S "---\n").length = 4 := by decide
        have hne : (S "---\n").get? (ln.length - q) ≠ some 10 := by
          have hb : ln.length - q < 3 := by omega
          interval_cases h : (ln.length - q) <;> decide
        exact hne hj.symm
      · have hq2 : q - (ln.length + 1) < (linesFlat rest).length := by
          simp only [linesFlat, List.length_append, List.length_cons] at hq
          omega
        have hdr : ((ln ++ [10]) ++ (linesFlat rest ++ tail)).drop q =
            (linesFlat rest ++ tail).drop (q - (ln.length + 1)) := by
          have hlen1 : (ln ++ [10]).length = ln.length + 1 := by simp
          have hdk : (ln ++ [10]).drop q = [] :=
            List.drop_eq_nil_of_le (by rw [hlen1]; omega)
          rw [List.drop_append_eq_append_drop, hdk, hlen1]
          simp
        rw [hdr]
        exact ih tail (fun l2 h2 => hlines l2 (List.mem_cons_of_mem ln h2))
          (q - (ln.length + 1)) hq2

/-- Transfer a no-occurrence condition across a change of suffix: if the
    pattern does not occur in the prefix, and cannot straddle into a suffix
    whose first character matches no later pattern position, then it does not
    occur before the end of the prefix in the combined string. -/
theorem min_transfer {pat A X : Str} {t : Nat} {b : Nat}
    (hhd : X.get? 0 = some t)
    (hne : ∀ j, j < pat.length → 1 ≤ j → pat.get? j ≠ some t)
    (hminA : ∀ m, b ≤ m → m + pat.length ≤ A.length → leadsWith pat (A.drop m) = false) :
    ∀ m, b ≤ m → m < A.length → leadsWith pat ((A ++ X).drop m) = false := by
  intro m hs hm
  rw [List.drop_append_eq_append_drop]
  have hm0 : m - A.length = 0 := by omega
  rw [hm0, List.drop_zero]
  by_cases hc : m + pat.length ≤ A.length
  · rw [leadsWith_append_of_le (by simp only [List.length_drop]; omega)]
    exact hminA m hs hc
  · exact no_straddle (by simp only [List.length_drop]; omega)
      (by simp only [List.length_drop]; omega) hhd hne

/-- Recover the prefix-only no-occurrence condition from one on the full
    string. -/
theorem minA_of {pat A Y : Str} {b : Nat} (hp : 1 ≤ pat.length)
    (hfull : ∀ m, b ≤ m → m < A.length → leadsWith pat ((A ++ Y).drop m) = false) :
    ∀ m, b ≤ m → m + pat.length ≤ A.length → leadsWith pat (A.drop m) = false := by
  intro m hs hm
  have h1 := hfull m hs (by omega)
  rw [List.drop_append_eq_append_drop] at h1
  rw [show m - A.length = 0 from by omega, List.drop_zero] at h1
  rw [leadsWith_append_of_le (by simp only [List.length_drop]; omega)] at h1
  exact h1

/-- manageFrontmatterTags on a document with a well-formed frontmatter whose
    tags field starts right after the prefix A and runs to the end of the
    block: the field is replaced (append or replace mode) and everything else
    is untouched. -/
theorem mFT_structured (A r0 : Str) (items : List Str) (body : Str)
    (tags : List Str) (fmt : TagCaseFormat) (mode : MergeMode) (tmpl : Option Str)
    (tvars : Option (List (Str × Str))) (lang : LanguagePreference)
    (fm content : Str)
    (hfm : fm = A ++ S "tags:" ++ r0 ++ [10] ++ linesFlat items)
    (hcontent : content = fm ++ S "---\n" ++ body)
    (hA : ∃ Pfx, A = S "---\n" ++ Pfx)
    (hr0 : ∀ d ∈ r0, d ≠ 10)
    (hitems : ∀ ln ∈ items, includes (S ":") (trim ln) = false ∧ trim ln ≠ S "---" ∧
      (∀ d ∈ ln, d ≠ 10))
    (htagsMin : ∀ m, m < A.length →
      leadsWith (S "tags:") ((lower fm).drop m) = false)
    (hcloseMin : ∀ m, m < fm.length → 4 ≤ m →
      leadsWith (S "---\n") (content.drop m) = false) :
    manageFrontmatterTags content tags fmt mode tmpl tvars (some lang) =
      A ++ S "tags:\n" ++
        (match mode with
         | MergeMode.append => formatTagsAsYamlList
             (appendCombinedTags (extractExistingTags fm) tags fmt lang) fmt
         | MergeMode.replace => formatTagsAsYamlList
             (tags.map (fun t => normalizeSpelling (formatTag t fmt) lang)) fmt) ++
        [10] ++ (S "---\n" ++ body) := by
  obtain ⟨Pfx, hPfx⟩ := hA
  have hlenA : 4 ≤ A.length := by
    rw [hPfx]
    simp only [List.length_append]
    have : (S "---\n").length = 4 := by decide
    omega
  have hlenAfm : A.length ≤ fm.length := by
    rw [hfm]
    simp only [List.length_append]
    omega
  have hv2 : content = fm ++ (S "---\n" ++ body) := by
    rw [hcontent, List.append_assoc]
  have hstart : leadsWith (S "---\n") content = true := by
    have hv : content = S "---\n" ++ (Pfx ++ (S "tags:" ++ r0 ++ [10] ++
        linesFlat items ++ S "---\n" ++ body)) := by
      rw [hcontent, hfm, hPfx]
      simp [List.append_assoc]
    rw [hv]
    exact leadsWith_self_append _ _
  have hidx : idxFrom (S "---\n") content 4 = some fm.length := by
    apply idxFrom_eq_some (by omega)
    · rw [hv2, drop_append_len rfl]
      exact leadsWith_self_append _ _
    · exact hcloseMin
  have htake : content.take fm.length = fm := by
    rw [hv2]
    exact take_append_len rfl
  have hdropc : content.drop fm.length = S "---\n" ++ body := by
    rw [hv2]
    exact drop_append_len rfl
  have hv3 : fm = A ++ (S "tags:" ++ (r0 ++ ([10] ++ linesFlat items))) := by
    rw [hfm]
    simp [List.append_assoc]
  have hincl : includes (S "tags:") fm = true := by
    apply includes_of_leadsWith (n := A.length)
    rw [hv3, drop_append_len rfl]
    exact leadsWith_self_append _ _
  have hrts : ∀ L : Str, replaceTagsSection fm L = A ++ S "tags:\n" ++ L ++ [10] := by
    intro L
    rw [hfm]
    apply rts_structured A r0 items L hr0 hitems
    rw [← hfm]
    exact htagsMin
  simp only [manageFrontmatterTags, hstart, if_true, hidx, htake, hdropc, hincl]
  cases mode with
  | append =>
    simp only [hrts]
    simp [List.append_assoc]
  | replace =>
    simp only [hrts]
    simp [List.append_assoc]

theorem lower_length (l : Str) : (lower l).length = l.length := by
  simp [lower]

theorem joinChar_linesFlat : ∀ (lines : List Str), lines ≠ [] →
    joinChar 10 lines ++ [10] = linesFlat lines := by
  intro lines
  induction lines with
  | nil => intro h; exact absurd rfl h
  | cons ln rest ih =>
    intro _
    cases rest with
    | nil => simp [joinChar, linesFlat]
    | cons l2 r2 =>
      show (ln ++ 10 :: joinChar 10 (l2 :: r2)) ++ [10] = ln ++ 10 :: linesFlat (l2 :: r2)
      rw [← ih (by simp)]
      simp [List.append_assoc]

theorem formatTagsAsYamlList_lines (ts : List Str) (fmt : TagCaseFormat) :
    formatTagsAsYamlList ts fmt =
      joinChar 10 (ts.map (fun tag => S "- " ++ formatTag tag fmt)) := by
  unfold formatTagsAsYamlList formatTagsList
  congr 1
  apply List.map_congr_left
  intro t _
  simp

/-- A string whose first and last characters are not whitespace is unchanged
    by trim. -/
theorem trim_keep {l : Str}
    (h1 : ∀ c rest, l = c :: rest → isWs c = false)
    (h2 : ∀ c rest, l.reverse = c :: rest → isWs c = false) : trim l = l := by
  unfold trim
  have e1 : l.dropWhile (fun c => isWs c) = l := by
    cases hc : l with
    | nil => rfl
    | cons c rest =>
      rw [List.dropWhile_cons]
      rw [h1 c rest hc]
      simp
  rw [e1]
  cases hd : l.reverse with
  | nil =>
    have : l = [] := by simpa using congrArg List.reverse hd
    simp [this]
  | cons d rest2 =>
    rw [List.dropWhile_cons, h2 d rest2 hd]
    simp only [Bool.false_eq_true, if_false]
    rw [← hd, List.reverse_reverse]

/-- The serialized line of a well-behaved formatted tag: no colon anywhere, it
    trims to itself, it is not the delimiter line, and holds no newline. -/
theorem tagLine_conditions {w : Str} (hw : ∀ d ∈ w, isWs d = false ∧ d ≠ 58)
    (hne : w ≠ []) :
    includes (S ":") (trim (S "- " ++ w)) = false ∧ trim (S "- " ++ w) ≠ S "---" ∧
    (∀ d ∈ S "- " ++ w, d ≠ 10) := by
  have hS : S "- " ++ w = 45 :: 32 :: w := by rfl
  obtain ⟨w2, e, rfl⟩ : ∃ w2 e, w = w2 ++ [e] := by
    rcases List.eq_nil_or_concat w with h | ⟨w2, e, h⟩
    · exact absurd h hne
    · exact ⟨w2, e, by rw [h]; simp [List.concat_eq_append]⟩
  have hemem : e ∈ w2 ++ [e] := List.mem_append_right w2 (List.mem_cons_self e [])
  have htrim : trim (S "- " ++ (w2 ++ [e])) = S "- " ++ (w2 ++ [e]) := by
    apply trim_keep
    · intro c rest hc
      rw [hS] at hc
      cases hc
      decide
    · intro c rest hc
      have hrev : (S "- " ++ (w2 ++ [e])).reverse = e :: (w2.reverse ++ [32, 45]) := by
        rw [hS]
        simp
      rw [hrev] at hc
      cases hc
      exact (hw e hemem).1
  refine ⟨?_, ?_, ?_⟩
  · rw [htrim, hS]
    rw [show S ":" = [58] from by decide]
    apply includes_single_false
    intro d hd
    rcases List.mem_cons.mp hd with rfl | hd
    · decide
    rcases List.mem_cons.mp hd with rfl | hd
    · decide
    · exact (hw d hd).2
  · rw [htrim]
    intro hcontra
    rw [hS, show S "---" = [45, 45, 45] from by decide] at hcontra
    simp at hcontra
  · intro d hd
    rw [hS] at hd
    rcases List.mem_cons.mp hd with rfl | hd
    · decide
    rcases List.mem_cons.mp hd with rfl | hd
    · decide
    · intro hcontra
      subst hcontra
      exact absurd (hw 10 hd).1 (by decide)

theorem head_append {x y : Str} {c : Nat} (h : x.get? 0 = some c) :
    (x ++ y).get? 0 = some c := by
  cases x with
  | nil => simp at h
  | cons a as => simpa using h

theorem drop_append_plus {a x : Str} {k : Nat} :
    (a ++ x).drop (a.length + k) = x.drop k := by
  rw [← List.drop_drop, drop_append_len rfl]

/-- A rebuilt frontmatter holds no closing-delimiter sequence before its end:
    the prefix A is delimiter-free past its opening, the 'tags:' label line
    cannot start one, and no serialized tag line contains one. -/
theorem content1_closeMin (A L body : Str) (lines : List Str)
    (hcloseA : ∀ m, 4 ≤ m → m + (S "---\n").length ≤ A.length →
      leadsWith (S "---\n") (A.drop m) = false)
    (hlines : ∀ ln ∈ lines, subIdx (S "---\n") (ln ++ [10]) = none)
    (hLlines : L ++ [10] = linesFlat lines) :
    ∀ m, m < (A ++ S "tags:\n" ++ L ++ [10]).length → 4 ≤ m →
      leadsWith (S "---\n")
        ((A ++ S "tags:\n" ++ L ++ [10] ++ (S "---\n" ++ body)).drop m) = false := by
  intro m hm h4m
  have hX : A ++ S "tags:\n" ++ L ++ [10] ++ (S "---\n" ++ body) =
      A ++ (S "tags:\n" ++ ((L ++ [10]) ++ (S "---\n" ++ body))) := by
    simp [List.append_assoc]
  rw [hX]
  by_cases hmA : m < A.length
  · apply min_transfer (t := 116) (b := 4) ?_ (by decide) hcloseA m h4m hmA
    apply head_append
    decide
  · have hmk : m = A.length + (m - A.length) := by omega
    rw [hmk, drop_append_plus]
    set k := m - A.length with hk
    have hkbound : k < 6 + (L.length + 1) := by
      have h6 : (S "tags:\n").length = 6 := by decide
      simp only [List.length_append, h6, List.length_cons, List.length_nil] at hm
      omega
    by_cases hk6 : k < 6
    · have hdr : (S "tags:\n" ++ ((L ++ [10]) ++ (S "---\n" ++ body))).drop k =
          (S "tags:\n").drop k ++ ((L ++ [10]) ++ (S "---\n" ++ body)) := by
        rw [List.drop_append_eq_append_drop]
        rw [show k - (S "tags:\n").length = 0 from by
          have h6 : (S "tags:\n").length = 6 := by decide
          omega]
        simp
      rw [hdr]
      interval_cases k
      · exact leadsWith_head_ne 45 116 (by decide) (head_append (by decide)) (by decide)
      · exact leadsWith_head_ne 45 97 (by decide) (head_append (by decide)) (by decide)
      · exact leadsWith_head_ne 45 103 (by decide) (head_append (by decide)) (by decide)
      · exact leadsWith_head_ne 45 115 (by decide) (head_append (by decide)) (by decide)
      · exact leadsWith_head_ne 45 58 (by decide) (head_append (by decide)) (by decide)
      · exact leadsWith_head_ne 45 10 (by decide) (head_append (by decide)) (by decide)
    · have hq : k = (S "tags:\n").length + (k - 6) := by
        have h6 : (S "tags:\n").length = 6 := by decide
        omega
      rw [hq, drop_append_plus]
      have hlin : (L ++ [10]) ++ (S "---\n" ++ body) =
          linesFlat lines ++ (S "---\n" ++ body) := by rw [hLlines]
      rw [hlin]
      apply linesFlat_no_delim lines _ hlines
      have hlen : (linesFlat lines).length = L.length + 1 := by
        rw [← hLlines]
        simp
      omega

/-- C5 counterexample: replace mode is NOT idempotent in general. On a
    document whose tags field is followed by another key line, replaceTagsSection
    consumes the newline separating the tags section from the following line, so
    the first application glues the new tag list onto the following key line, and
    the second application duplicates the tag item. The two results differ. -/
theorem C5_replace_not_idempotent_cex :
    manageFrontmatterTags (S "---\ntags: old\nauthor: me\n---\nbody")
        [S "new"] TagCaseFormat.lowercase MergeMode.replace none none
        (some LanguagePreference.uk) =
      S "---\ntags:\n- newauthor: me\n---\nbody" ∧
    manageFrontmatterTags (manageFrontmatterTags
        (S "---\ntags: old\nauthor: me\n---\nbody")
        [S "new"] TagCaseFormat.lowercase MergeMode.replace none none
        (some LanguagePreference.uk))
        [S "new"] TagCaseFormat.lowercase MergeMode.replace none none
        (some LanguagePreference.uk) =
      S "---\ntags:\n- new- newauthor: me\n---\nbody" ∧
    manageFrontmatterTags (manageFrontmatterTags
        (S "---\ntags: old\nauthor: me\n---\nbody")
        [S "new"] TagCaseFormat.lowercase MergeMode.replace none none
        (some LanguagePreference.uk))
        [S "new"] TagCaseFormat.lowercase MergeMode.replace none none
        (some LanguagePreference.uk) ≠
      manageFrontmatterTags (S "---\ntags: old\nauthor: me\n---\nbody")
        [S "new"] TagCaseFormat.lowercase MergeMode.replace none none
        (some LanguagePreference.uk) := by
  refine ⟨by decide, by decide, by decide⟩

/-- C5 (amended): replace mode is idempotent on documents whose tags field is
    the last field of the frontmatter (so the glue bug of replaceTagsSection
    cannot fire), provided the frontmatter prefix holds no earlier
    (case-insensitive) occurrence of the tags label and no interior closing
    delimiter, and the serialized new tags are nonempty, free of whitespace,
    colons and delimiter sequences. The first application rewrites the tags
    field to the canonical serialized form of T; the second application leaves
    that result unchanged. -/
theorem C5_replace_idempotent
    (Pfx r0 : Str) (items : List Str) (body : Str) (T : List Str)
    (fmt : TagCaseFormat) (tmpl : Option Str) (tvars : Option (List (Str × Str)))
    (lang : LanguagePreference) (A fm content L : Str)
    (hA : A = S "---\n" ++ Pfx)
    (hfm : fm = A ++ S "tags:" ++ r0 ++ [10] ++ linesFlat items)
    (hcontent : content = fm ++ S "---\n" ++ body)
    (hL : L = formatTagsAsYamlList
      (T.map (fun t => normalizeSpelling (formatTag t fmt) lang)) fmt)
    (hr0 : ∀ d ∈ r0, d ≠ 10)
    (hitems : ∀ ln ∈ items, includes (S ":") (trim ln) = false ∧ trim ln ≠ S "---" ∧
      (∀ d ∈ ln, d ≠ 10))
    (htagsMin : ∀ m, m < A.length →
      leadsWith (S "tags:") ((lower fm).drop m) = false)
    (hcloseMin : ∀ m, m < fm.length → 4 ≤ m →
      leadsWith (S "---\n") (content.drop m) = false)
    (hT : ∀ t ∈ T,
      (∀ d ∈ formatTag (normalizeSpelling (formatTag t fmt) lang) fmt,
        isWs d = false ∧ d ≠ 58) ∧
      formatTag (normalizeSpelling (formatTag t fmt) lang) fmt ≠ [] ∧
      subIdx (S "---\n")
        ((S "- " ++ formatTag (normalizeSpelling (formatTag t fmt) lang) fmt) ++ [10]) =
        none) :
    manageFrontmatterTags content T fmt MergeMode.replace tmpl tvars (some lang) =
      A ++ S "tags:\n" ++ L ++ [10] ++ (S "---\n" ++ body) ∧
    manageFrontmatterTags
        (manageFrontmatterTags content T fmt MergeMode.replace tmpl tvars (some lang))
        T fmt MergeMode.replace tmpl tvars (some lang) =
      manageFrontmatterTags content T fmt MergeMode.replace tmpl tvars (some lang) := by
  have hrun1 := mFT_structured A r0 items body T fmt MergeMode.replace tmpl tvars lang
    fm content hfm hcontent ⟨Pfx, hA⟩ hr0 hitems htagsMin hcloseMin
  have hrun1' : manageFrontmatterTags content T fmt MergeMode.replace tmpl tvars
      (some lang) = A ++ S "tags:\n" ++ L ++ [10] ++ (S "---\n" ++ body) := by
    rw [hL]
    exact hrun1
  refine ⟨hrun1', ?_⟩
  rw [hrun1']
  have hAfm : A.length ≤ fm.length := by
    rw [hfm]
    simp only [List.length_append]
    omega
  have hfmsplit : fm = A ++ (S "tags:" ++ (r0 ++ ([10] ++ linesFlat items))) := by
    rw [hfm]
    simp [List.append_assoc]
  have hlowfm : lower fm =
      lower A ++ lower (S "tags:" ++ (r0 ++ ([10] ++ linesFlat items))) := by
    rw [hfmsplit, lower_append]
  have htagsA : ∀ m, 0 ≤ m → m + (S "tags:").length ≤ (lower A).length →
      leadsWith (S "tags:") ((lower A).drop m) = false := by
    apply minA_of (by decide)
    intro m _ hm
    rw [← hlowfm]
    exact htagsMin m (by rw [lower_length] at hm; exact hm)
  have hcsplit : content =
      A ++ (S "tags:" ++ (r0 ++ ([10] ++ (linesFlat items ++ (S "---\n" ++ body))))) := by
    rw [hcontent, hfm]
    simp [List.append_assoc]
  have hcloseA : ∀ m, 4 ≤ m → m + (S "---\n").length ≤ A.length →
      leadsWith (S "---\n") (A.drop m) = false := by
    apply minA_of (by decide)
    intro m h4 hm
    rw [← hcsplit]
    exact hcloseMin m (by omega) h4
  obtain ⟨lines, hLlines, hlines_items, hlines_delim⟩ :
      ∃ lines : List Str, L ++ [10] = linesFlat lines ∧
        (∀ ln ∈ lines, includes (S ":") (trim ln) = false ∧ trim ln ≠ S "---" ∧
          (∀ d ∈ ln, d ≠ 10)) ∧
        (∀ ln ∈ lines, subIdx (S "---\n") (ln ++ [10]) = none) := by
    cases T with
    | nil =>
      refine ⟨[[]], by rw [hL]; rfl, ?_, ?_⟩
      · intro ln hln
        simp only [List.mem_singleton] at hln
        subst hln
        exact ⟨by decide, by decide, by intro d hd; simp at hd⟩
      · intro ln hln
        simp only [List.mem_singleton] at hln
        subst hln
        decide
    | cons t0 ts =>
      refine ⟨(t0 :: ts).map
        (fun t => S "- " ++ formatTag (normalizeSpelling (formatTag t fmt) lang) fmt),
        ?_, ?_, ?_⟩
      · rw [hL, formatTagsAsYamlList_lines, List.map_map]
        exact joinChar_linesFlat _ (by simp)
      · intro ln hln
        simp only [List.mem_map] at hln
        obtain ⟨t, ht, rfl⟩ := hln
        exact tagLine_conditions (hT t ht).1 (hT t ht).2.1
      · intro ln hln
        simp only [List.mem_map] at hln
        obtain ⟨t, ht, rfl⟩ := hln
        exact (hT t ht).2.2
  have htg : S "tags:\n" = S "tags:" ++ [10] := by decide
  have hc1 : A ++ S "tags:\n" ++ L ++ [10] ++ (S "---\n" ++ body) =
      (A ++ S "tags:" ++ ([] : Str) ++ [10] ++ linesFlat lines) ++ S "---\n" ++ body := by
    rw [← hLlines, htg]
    simp [List.append_assoc]
  have he1 : A ++ S "tags:\n" ++ L ++ [10] =
      A ++ S "tags:" ++ ([] : Str) ++ [10] ++ linesFlat lines := by
    rw [← hLlines, htg]
    simp [List.append_assoc]
  have hsplit1 : A ++ S "tags:" ++ ([] : Str) ++ [10] ++ linesFlat lines =
      A ++ (S "tags:" ++ ([10] ++ linesFlat lines)) := by
    simp [List.append_assoc]
  have htagsMin1 : ∀ m, m < A.length →
      leadsWith (S "tags:")
        ((lower (A ++ S "tags:" ++ ([] : Str) ++ [10] ++ linesFlat lines)).drop m) =
        false := by
    intro m hm
    rw [hsplit1, lower_append]
    refine min_transfer (t := 116) ?_ (by decide) htagsA m (Nat.zero_le m) ?_
    · rw [lower_append]
      apply head_append
      decide
    · rw [lower_length]
      exact hm
  have hcloseMin1 : ∀ m,
      m < (A ++ S "tags:" ++ ([] : Str) ++ [10] ++ linesFlat lines).length → 4 ≤ m →
      leadsWith (S "---\n")
        (((A ++ S "tags:" ++ ([] : Str) ++ [10] ++ linesFlat lines) ++
          S "---\n" ++ body).drop m) = false := by
    intro m hm h4
    have h := content1_closeMin A L body lines hcloseA hlines_delim hLlines m
      (by rw [he1]; exact hm) h4
    rw [hc1] at h
    exact h
  have h2 := mFT_structured A [] lines body T fmt MergeMode.replace tmpl tvars lang
    (A ++ S "tags:" ++ ([] : Str) ++ [10] ++ linesFlat lines)
    ((A ++ S "tags:" ++ ([] : Str) ++ [10] ++ linesFlat lines) ++ S "---\n" ++ body)
    rfl rfl ⟨Pfx, hA⟩ (by intro d hd; simp at hd) hlines_items htagsMin1 hcloseMin1
  have h2' : manageFrontmatterTags
      ((A ++ S "tags:" ++ ([] : Str) ++ [10] ++ linesFlat lines) ++ S "---\n" ++ body)
      T fmt MergeMode.replace tmpl tvars (some lang) =
      A ++ S "tags:\n" ++ L ++ [10] ++ (S "---\n" ++ body) := by
    rw [hL]
    exact h2
  rw [hc1, h2', ← hc1]

/-- C5 witness: a concrete instance of the amended idempotence theorem, on the
    document '---(nl)title: X(nl)tags: old(nl)---(nl)b' with new tag list
    ['cat'], lowercase format, uk preference. -/
theorem C5_replace_idempotent_witness :
    manageFrontmatterTags (S "---\ntitle: X\ntags: old\n---\nb") [S "cat"]
        TagCaseFormat.lowercase MergeMode.replace none none
        (some LanguagePreference.uk) =
      S "---\ntitle: X\n" ++ S "tags:\n" ++ S "- cat" ++ [10] ++
        (S "---\n" ++ S "b") ∧
    manageFrontmatterTags
        (manageFrontmatterTags (S "---\ntitle: X\ntags: old\n---\nb") [S "cat"]
          TagCaseFormat.lowercase MergeMode.replace none none
          (some LanguagePreference.uk))
        [S "cat"] TagCaseFormat.lowercase MergeMode.replace none none
        (some LanguagePreference.uk) =
      manageFrontmatterTags (S "---\ntitle: X\ntags: old\n---\nb") [S "cat"]
        TagCaseFormat.lowercase MergeMode.replace none none
        (some LanguagePreference.uk) :=
  C5_replace_idempotent (S "title: X\n") (S " old") [] (S "b") [S "cat"]
    TagCaseFormat.lowercase none none LanguagePreference.uk
    (S "---\ntitle: X\n") (S "---\ntitle: X\ntags: old\n")
    (S "---\ntitle: X\ntags: old\n---\nb") (S "- cat")
    (by decide) (by decide) (by decide) (by decide) (by decide) (by decide)
    (by decide) (by decide) (by decide)

/-- On a frontmatter ending with a 'tags: []' field, with no earlier
    case-insensitive occurrence of the tags label, extraction yields the empty
    list: the YAML-list shape finds no item, the inline-array shape matches
    with an empty (falsy) capture, and the single-scalar fallback reads the
    literal value which is explicitly rejected. -/
theorem extract_empty (A : Str)
    (htagsMin : ∀ m, m < A.length →
      leadsWith (S "tags:") ((lower (A ++ S "tags: []\n")).drop m) = false) :
    extractExistingTags (A ++ S "tags: []\n") = [] := by
  have hCI : ∀ m, m < A.length →
      ciLeadsWith (S "tags:") ((A ++ S "tags: []\n").drop m) = false := by
    intro m hm
    rw [ciLeadsWith_eq, show lower (S "tags:") = S "tags:" from by decide, lower_drop]
    exact htagsMin m hm
  have hlen : A.length ≤ (A ++ S "tags: []\n").length := by
    simp
  have hs1 : scanFirst mR1At (A ++ S "tags: []\n") = none := by
    rw [scanFirst_skip mR1At A.length _ (fun m hm => mR1At_none (hCI m hm)) hlen,
      drop_append_len rfl]
    decide
  have hs2 : scanFirst mR2At (A ++ S "tags: []\n") = some ([] : Str) := by
    rw [scanFirst_skip mR2At A.length _ (fun m hm => mR2At_none (hCI m hm)) hlen,
      drop_append_len rfl]
    decide
  have hs3 : scanFirst mR3At (A ++ S "tags: []\n") = some (S "[]") := by
    rw [scanFirst_skip mR3At A.length _ (fun m hm => mR3At_none (hCI m hm)) hlen,
      drop_append_len rfl]
    decide
  unfold extractExistingTags
  rw [hs1, hs2]
  show extractExistingTags.extractSingle (A ++ S "tags: []\n") = []
  unfold extractExistingTags.extractSingle
  rw [hs3]
  decide

theorem appendCombinedTags_nil (N : List Str) (fmt : TagCaseFormat)
    (lang : LanguagePreference) :
    appendCombinedTags [] N fmt lang =
      N.map (fun t => normalizeSpelling (formatTag t fmt) lang) := by
  simp [appendCombinedTags]

/-- C10 counterexample: when another key line follows the 'tags: []' field,
    the appended tag field does NOT contain exactly the formatted new tags.
    Extraction of 'tags: []' does yield the empty list, but the section
    rewrite glues the new tag item onto the following 'author' line, so the
    resulting document's tag field parses as the corrupt tag
    'xauthor: me' rather than the new tag 'x'. -/
theorem C10_inline_empty_cex :
    extractExistingTags (S "---\ntags: []\nauthor: me\n") = [] ∧
    manageFrontmatterTags (S "---\ntags: []\nauthor: me\n---\nb") [S "x"]
        TagCaseFormat.lowercase MergeMode.append none none
        (some LanguagePreference.uk) =
      S "---\ntags:\n- xauthor: me\n---\nb" ∧
    extractExistingTags (S "---\ntags:\n- xauthor: me\n") = [S "xauthor: me"] := by
  refine ⟨by decide, by decide, by decide⟩

/-- C10 (amended): on a document whose frontmatter tag field is the final
    field 'tags: []' (the form produced by the default new-note template),
    with no earlier case-insensitive occurrence of the tags label and no
    interior closing delimiter, extractExistingTags returns the empty list,
    and appending new tags N yields a tag field holding exactly the
    formatted, spelling-normalized N. The restriction to a final tags field
    is required: the counterexample shows the claim fails when another key
    line follows the field. -/
theorem C10_inline_empty
    (Pfx body : Str) (N : List Str) (fmt : TagCaseFormat) (tmpl : Option Str)
    (tvars : Option (List (Str × Str))) (lang : LanguagePreference)
    (A fm content : Str)
    (hA : A = S "---\n" ++ Pfx)
    (hfm : fm = A ++ S "tags: []\n")
    (hcontent : content = fm ++ S "---\n" ++ body)
    (htagsMin : ∀ m, m < A.length →
      leadsWith (S "tags:") ((lower fm).drop m) = false)
    (hcloseMin : ∀ m, m < fm.length → 4 ≤ m →
      leadsWith (S "---\n") (content.drop m) = false) :
    extractExistingTags fm = [] ∧
    manageFrontmatterTags content N fmt MergeMode.append tmpl tvars (some lang) =
      A ++ S "tags:\n" ++
        formatTagsAsYamlList
          (N.map (fun t => normalizeSpelling (formatTag t fmt) lang)) fmt ++
        [10] ++ (S "---\n" ++ body) := by
  have hext : extractExistingTags fm = [] := by
    rw [hfm]
    apply extract_empty
    intro m hm
    rw [← hfm]
    exact htagsMin m hm
  refine ⟨hext, ?_⟩
  have hfm' : fm = A ++ S "tags:" ++ S " []" ++ [10] ++ linesFlat ([] : List Str) := by
    rw [hfm, show S "tags: []\n" =
      S "tags:" ++ (S " []" ++ ([10] ++ linesFlat ([] : List Str))) from by decide]
    simp [List.append_assoc]
  have h := mFT_structured A (S " []") [] body N fmt MergeMode.append tmpl tvars lang
    fm content hfm' hcontent ⟨Pfx, hA⟩ (by decide)
    (by intro ln hln; simp at hln) htagsMin hcloseMin
  rw [hext, appendCombinedTags_nil] at h
  exact h

/-- C10 witness: the default-template document with frontmatter
    '---(nl)tags: [](nl)---(nl)' and body 'body', appending the tag 'Dog'
    in lowercase format with uk preference. -/
theorem C10_inline_empty_witness :
    extractExistingTags (S "---\ntags: []\n") = [] ∧
    manageFrontmatterTags (S "---\ntags: []\n---\nbody") [S "Dog"]
        TagCaseFormat.lowercase MergeMode.append none none
        (some LanguagePreference.uk) =
      S "---\n" ++ S "tags:\n" ++
        formatTagsAsYamlList
          ([S "Dog"].map (fun t =>
            normalizeSpelling (formatTag t TagCaseFormat.lowercase)
              LanguagePreference.uk)) TagCaseFormat.lowercase ++
        [10] ++ (S "---\n" ++ S "body") :=
  C10_inline_empty [] (S "body") [S "Dog"] TagCaseFormat.lowercase none none
    LanguagePreference.uk (S "---\n") (S "---\ntags: []\n")
    (S "---\ntags: []\n---\nbody")
    (by decide) (by decide) (by decide) (by decide) (by decide)

end FF
